import Mathlib

/-!
Verification of the rem-repairer core (src/common.rs) against its specification.

The development shallowly embeds the data model and operations of the repair
engine: the diagnostic records, the suggestion patcher, the lifetime bound
inserter, the lifetime elision engine, the callee renamer, and the two repair
iteration drivers.  Rust strings are Lean strings; lifetime names are stored
without their leading tick (the source writes a lifetime as a quoted token,
e.g. the placeholder written as underscore here).  Machine integers (i32) are
Lean Int.  Subprocess invocations are modelled as a function from the
invocation index to the observed outcome; the possibly non-terminating driver
loops are given explicit fuel and return none when the fuel runs out, so that
termination is the statement that sufficient fuel always yields some result.
The external regex engine is modelled as an oracle producing the capture
groups the source extracts from rendered diagnostic text.
-/

namespace Rem

/-! ### String helpers (model of Rust str::contains) -/

/-- Whether `pat` is a prefix of `l` (character lists). -/
def listIsPref : List Char → List Char → Bool
  | [], _ => true
  | _ :: _, [] => false
  | p :: ps, c :: cs => p == c && listIsPref ps cs

/-- Whether `pat` occurs as a contiguous sublist of `l`. -/
def listHasSub (pat : List Char) : List Char → Bool
  | [] => pat.isEmpty
  | c :: cs => listIsPref pat (c :: cs) || listHasSub pat cs

/-- Model of Rust `str::contains` for substring patterns (the empty pattern
always matches, as in Rust).  Structurally recursive so that concrete
instances evaluate inside the kernel. -/
def strContains (s pat : String) : Bool :=
  listHasSub pat.data s.data

/-- Replace, left to right and without overlap, every occurrence of the
non-empty pattern `pat` by `repl`: the skip counter consumes the matched
characters.  Model of Rust `str::replace` (the source only ever replaces the
fixed non-empty marker suffix). -/
def listReplaceGo (pat repl : List Char) : List Char → Nat → List Char
  | [], _ => []
  | c :: cs, 0 =>
    if listIsPref pat (c :: cs) && decide (0 < pat.length) then
      repl ++ listReplaceGo pat repl cs (pat.length - 1)
    else c :: listReplaceGo pat repl cs 0
  | _ :: cs, k + 1 => listReplaceGo pat repl cs k

/-- Model of Rust `str::replace` for a non-empty pattern. -/
def strReplace (s pat repl : String) : String :=
  String.mk (listReplaceGo pat.data repl.data s.data 0)

/-- Model of Rust `str::parse::<usize>()`: all characters must be decimal
digits and there must be at least one. -/
def parseNatGo : List Char → Nat → Option Nat
  | [], acc => some acc
  | c :: cs, acc =>
    if c.isDigit then parseNatGo cs (acc * 10 + (c.toNat - 48)) else none

/-- Parse a decimal natural number, none on the empty or a non-digit string. -/
def parseNat (s : String) : Option Nat :=
  match s.data with
  | [] => none
  | l => parseNatGo l 0

/-- The tick character that prefixes Rust lifetime tokens. -/
def tick : String := String.singleton (Char.ofNat 39)

/-! ### Diagnostic model (RustcError / RustcSpan / CargoError, src/common.rs 35-44, 703-706)

A record of the serde JSON stream is either a successfully deserialized value
or a deserialization error; the error payload is the serde error message. -/

structure RustcSpan where
  file_name : String
deriving DecidableEq, Repr

structure RustcError where
  rendered : String
  spans : List RustcSpan
deriving DecidableEq, Repr

structure CargoError where
  message : Option RustcError
deriving DecidableEq, Repr

/-- `repair_standard_help`/`repair_bounds_help` line 51-54 and 164-167: a record
that fails to deserialize contributes the whole raw stderr as rendered text. -/
def renderedOf (stderr : String) : Except String RustcError → String
  | .ok i => i.rendered
  | .error _ => stderr

/-! ### Repair iteration driver (repair_iteration, src/common.rs 204-244) -/

structure RepairResult where
  success : Bool
  repair_count : Int
  has_non_elidible_lifetime : Bool
  has_struct_lt : Bool
deriving DecidableEq, Repr

/-- Outcome of one invocation of the compile command (exit status plus captured
stderr text). -/
structure CmdOutcome where
  statusSuccess : Bool
  stderr : String

/-- The loop of `repair_iteration` (lines 219-234).  `out k` is the outcome of
the k-th subprocess invocation, `fuel` bounds the number of iterations the
model is willing to unfold, `k` is the number of invocations performed so far
and `count` the current repair count.  Returns `(success, count, invocations)`,
or `none` if the fuel ran out with the loop still running. -/
def repairIterationGo (out : Nat → CmdOutcome) (process_errors : String → Bool)
    (max_iterations : Int) : Nat → Nat → Int → Option (Bool × Int × Nat)
  | 0, _, _ => none
  | fuel + 1, k, count =>
    let o := out k
    if o.statusSuccess then some (true, count, k + 1)
    else
      let count1 := count + 1
      if process_errors o.stderr = false then some (false, count1, k + 1)
      else if max_iterations == count1 then some (false, count1, k + 1)
      else repairIterationGo out process_errors max_iterations fuel (k + 1) count1

/-- `repair_iteration` (lines 204-244): runs the loop from the initial state and
packages the result; the two lifetime flags of the result are initialized to
false at line 212-217 and never assigned afterwards.  The second component is
the number of subprocess invocations performed. -/
def repair_iteration (out : Nat → CmdOutcome) (process_errors : String → Bool)
    (max_iterations : Option Int) (fuel : Nat) : Option (RepairResult × Nat) :=
  let mi := max_iterations.getD 25
  match repairIterationGo out process_errors mi fuel 0 0 with
  | none => none
  | some (succ, count, inv) =>
      some ({ success := succ, repair_count := count,
              has_non_elidible_lifetime := false, has_struct_lt := false }, inv)

/-! ### Project-level driver (repair_iteration_project, src/common.rs 708-782) -/

/-- Whether one record of the cargo JSON stream makes the per-iteration `help`
flag true (lines 738-761): a record that deserializes, carries a message, has a
span whose file name occurs in the source path, and whose message the supplied
`process_errors` accepts.  A record that fails to deserialize is only logged
(line 757-759). -/
def recordHelps (process_errors : RustcError → Bool) (src_path : String) :
    Except String CargoError → Bool
  | .error _ => false
  | .ok ce =>
    match ce.message with
    | none => false
    | some m =>
        (m.spans.any fun sp => strContains src_path sp.file_name) && process_errors m

/-- The per-iteration record scan of `repair_iteration_project`: `help` is true
iff some record helps (the inner `break` only leaves the span loop, and
`process_errors` is a pure function, so the fold is equivalent). -/
def iterationHelp (process_errors : RustcError → Bool) (src_path : String)
    (records : List (Except String CargoError)) : Bool :=
  records.any (recordHelps process_errors src_path)

/-- Outcome of one invocation of the build command: exit status plus the stream
of JSON records read from its stdout. -/
structure ProjectOutcome where
  statusSuccess : Bool
  records : List (Except String CargoError)

/-- The loop of `repair_iteration_project` (lines 723-772), same shape as the
file-level loop with the per-iteration record scan in place of the raw
process_errors call. -/
def repairIterationProjectGo (out : Nat → ProjectOutcome)
    (process_errors : RustcError → Bool) (src_path : String)
    (max_iterations : Int) : Nat → Nat → Int → Option (Bool × Int × Nat)
  | 0, _, _ => none
  | fuel + 1, k, count =>
    let o := out k
    if o.statusSuccess then some (true, count, k + 1)
    else
      let count1 := count + 1
      if iterationHelp process_errors src_path o.records = false then
        some (false, count1, k + 1)
      else if max_iterations == count1 then some (false, count1, k + 1)
      else repairIterationProjectGo out process_errors src_path max_iterations fuel
        (k + 1) count1

/-- `repair_iteration_project` (lines 708-782); the result flags are initialized
false at lines 717-722 and never assigned afterwards. -/
def repair_iteration_project (out : Nat → ProjectOutcome)
    (process_errors : RustcError → Bool) (src_path : String)
    (max_iterations : Option Int) (fuel : Nat) : Option (RepairResult × Nat) :=
  let mi := max_iterations.getD 25
  match repairIterationProjectGo out process_errors src_path mi fuel 0 0 with
  | none => none
  | some (succ, count, inv) =>
      some ({ success := succ, repair_count := count,
              has_non_elidible_lifetime := false, has_struct_lt := false }, inv)

/-! ### Suggestion patcher (repair_standard_help, src/common.rs 46-102) -/

/-- One capture of the help regex (line 55): the text of the named groups
line_number and replacement. -/
structure HelpCapture where
  line_number : String
  replacement : String
deriving DecidableEq, Repr

/-- The placeholder guard of line 84: a replacement that contains the literal
generic-lifetime token (ampersand, tick, the word lifetime) is skipped. -/
def lifetimeGuard : String := "&" ++ tick ++ "lifetime"

/-- The rewrite loop of repair_standard_help (lines 67-99) over the captures of
one record: `cur` is current_line, `out` accumulates the written lines.  A
capture whose line number fails to parse is skipped (lines 79-82); a capture
whose replacement contains the placeholder is skipped (lines 84-86); otherwise
the lines strictly before the 1-based target line are copied, the replacement
is emitted in its place and the cursor advances past the replaced line; after
the last capture the remaining lines are copied (lines 96-99).  An
out-of-range read, which would panic in the source, yields the empty string
here. -/
def applyCaptures (lines : List String) :
    List HelpCapture → Nat → List String → Bool → List String × Bool
  | [], cur, out, helped => (out ++ lines.drop cur, helped)
  | cap :: rest, cur, out, helped =>
    match parseNat cap.line_number with
    | none => applyCaptures lines rest cur out helped
    | some n =>
      if strContains cap.replacement lifetimeGuard then
        applyCaptures lines rest cur out helped
      else
        let toCopy := (n - 1) - cur
        let copied := (List.range toCopy).map (fun i => lines.getD (cur + i) "")
        applyCaptures lines rest (cur + toCopy + 1)
          (out ++ copied ++ [cap.replacement]) true

/-- `repair_standard_help` (lines 46-102).  `capturesOf` is the regex oracle:
the captures the help pattern finds in a rendered text.  The file content is
re-read for every record of the stream and rewritten afterwards, so the line
list threads through the fold; `helped` is sticky across records. -/
def repair_standard_help (capturesOf : String → List HelpCapture)
    (records : List (Except String RustcError)) (stderr : String)
    (lines : List String) : List String × Bool :=
  records.foldl
    (fun st item =>
      let res := applyCaptures st.1 (capturesOf (renderedOf stderr item)) 0 [] false
      (res.1, st.2 || res.2))
    (lines, false)

/-! ### Function signature AST

The mutable subject of the bound inserter and the elision engine, modelling
the syn nodes the visitors touch.  A type is a unit leaf, a reference with an
optional lifetime, or a path type applied to lifetime generic arguments
(GenericArgument::Lifetime nodes); lifetime names are stored without the
leading tick. -/

inductive Ty where
  | unit : Ty
  | ref (lt : Option String) (inner : Ty) : Ty
  | path (name : String) (args : List String) : Ty
deriving DecidableEq, Repr

/-- A generic parameter: a lifetime parameter, or a non-lifetime (type)
parameter whose bound may mention lifetimes. -/
inductive GenericParam where
  | lifetimeParam (name : String) : GenericParam
  | typeParam (name : String) (bound : Ty) : GenericParam
deriving DecidableEq, Repr

/-- A where-clause lifetime predicate lhs: bound0 + rest.  The first bound is
kept apart because `fn_lifetime_elider` line 405 unwraps `bounds.first()`,
which the parser guarantees to exist. -/
structure WherePred where
  lhs : String
  bound0 : String
  boundRest : List String
deriving DecidableEq, Repr

structure Generics where
  params : List GenericParam
  whereClause : Option (List WherePred)
deriving DecidableEq, Repr

/-- A function input: a receiver (self) or a typed parameter. -/
inductive FnArg where
  | receiver : FnArg
  | typed (ty : Ty) : FnArg
deriving DecidableEq, Repr

/-- A function signature: generics (with optional where clause), ordered
inputs, optional return type. -/
structure Signature where
  generics : Generics
  inputs : List FnArg
  output : Option Ty
deriving DecidableEq, Repr

/-- A top-level item of a parsed file: a free function, an inherent impl block
with named methods, a trait block with named methods, or anything else. -/
inductive Item where
  | fn (name : String) (sig : Signature) : Item
  | implBlock (methods : List (String × Signature)) : Item
  | traitBlock (methods : List (String × Signature)) : Item
  | other : Item
deriving DecidableEq, Repr

/-! ### Lifetime bound inserter (FnLifetimeBounder / repair_bounds_help,
src/common.rs 104-202) -/

/-- `fn_lifetime_bounder` (lines 141-157): get-or-insert the where clause and
push the predicate lhs: bound. -/
def fn_lifetime_bounder (lt bound : String) (sig : Signature) : Signature :=
  { sig with
      generics :=
        { sig.generics with
            whereClause :=
              some ((sig.generics.whereClause.getD []) ++ [⟨lt, bound, []⟩]) } }

/-- The FnLifetimeBounder visitor on one item (lines 111-139): every free
function, inherent-impl method and trait method whose name equals the target
receives the predicate; the second component is whether a matching item was
visited (the visitor sets success on every call). -/
def bounderItem (fnName lt bound : String) : Item → Item × Bool
  | .fn n sig =>
    if n == fnName then (.fn n (fn_lifetime_bounder lt bound sig), true)
    else (.fn n sig, false)
  | .implBlock ms =>
    (.implBlock (ms.map fun m =>
        if m.1 == fnName then (m.1, fn_lifetime_bounder lt bound m.2) else m),
     ms.any fun m => m.1 == fnName)
  | .traitBlock ms =>
    (.traitBlock (ms.map fun m =>
        if m.1 == fnName then (m.1, fn_lifetime_bounder lt bound m.2) else m),
     ms.any fun m => m.1 == fnName)
  | .other => (.other, false)

/-- The visitor over a whole file; success is true iff some item matched. -/
def bounderFile (fnName lt bound : String) (file : List Item) :
    List Item × Bool :=
  (file.map fun it => (bounderItem fnName lt bound it).1,
   file.any fun it => (bounderItem fnName lt bound it).2)

/-- One captured constraint of `repair_bounds_help` (lines 176-199): re-parse
the current file, visit it, and keep (write back) the mutated file only when
the visitor succeeded; helped is sticky. -/
def boundsStep (fnName : String) (st : List Item × Bool) (cap : String × String) :
    List Item × Bool :=
  let r := bounderFile fnName cap.1 cap.2 st.1
  if r.2 then (r.1, true) else (st.1, st.2)

/-- `repair_bounds_help` (lines 159-202).  `capturesOf` is the regex oracle for
the constraint pattern of line 168, producing the (constraint_lhs,
constraint_rhs) capture pairs found in a rendered text. -/
def repair_bounds_help (capturesOf : String → List (String × String))
    (records : List (Except String RustcError)) (stderr : String)
    (fnName : String) (file : List Item) : List Item × Bool :=
  records.foldl
    (fun st item => (capturesOf (renderedOf stderr item)).foldl (boundsStep fnName) st)
    (file, false)

/-- Whether a signature's where clause contains the plain predicate a: b. -/
def sigHasPred (a b : String) (sig : Signature) : Bool :=
  (sig.generics.whereClause.getD []).any fun wp => wp == ⟨a, b, []⟩

/-- Whether every function-like member of the item that is named fnName has
the predicate a: b in its where clause. -/
def itemPredOK (fnName a b : String) : Item → Bool
  | .fn n sig => !(n == fnName) || sigHasPred a b sig
  | .implBlock ms => ms.all fun m => !(m.1 == fnName) || sigHasPred a b m.2
  | .traitBlock ms => ms.all fun m => !(m.1 == fnName) || sigHasPred a b m.2
  | .other => true

/-- Whether an item contains a function-like member named fnName. -/
def itemMatches (fnName : String) : Item → Bool
  | .fn n _ => n == fnName
  | .implBlock ms => ms.any fun m => m.1 == fnName
  | .traitBlock ms => ms.any fun m => m.1 == fnName
  | .other => false

/-- Whether a file contains a function-like item named fnName. -/
def hasMatch (fnName : String) (file : List Item) : Bool :=
  file.any (itemMatches fnName)

/-- Modelled from the spec (section 4.1 and the error-handling design, for the
refinement comparison of the claim): a project-level record that fails to
deserialize is degraded to treating the entire raw text as the rendered
message and handing it to the patch logic, instead of being skipped. -/
def iterationHelpSpecDegraded (process_errors : RustcError → Bool)
    (src_path raw : String) (records : List (Except String CargoError)) : Bool :=
  records.any fun r =>
    match r with
    | .error _ => process_errors ⟨raw, []⟩
    | .ok ce => recordHelps process_errors src_path (.ok ce)

/-! ### Lifetime elision engine (FnLifetimeElider, src/common.rs 249-617) -/

/-- LtGetterElider over a type (lines 323-332 with the default syn traversal):
every lifetime occurrence, reference lifetimes and lifetime generic arguments
alike, in traversal order. -/
def Ty.lts : Ty → List String
  | .unit => []
  | .ref none inner => inner.lts
  | .ref (some l) inner => l :: inner.lts
  | .path _ args => args

/-- FnLifetimeEliderTypeHelper (lines 281-294): erase the lifetime of every
reference whose name is not in cannot_elide and has usage count at most one;
lifetime generic arguments are left untouched (the generic-argument filter at
lines 256-279 of the source is commented out). -/
def Ty.strip (cannot : List String) (cnt : String → Nat) : Ty → Ty
  | .unit => .unit
  | .ref lt inner =>
    let lt2 := match lt with
      | none => none
      | some id =>
        if cannot.contains id = false ∧ cnt id ≤ 1 then none else some id
    .ref lt2 (Ty.strip cannot cnt inner)
  | .path n args => .path n args

/-- Lookup with last-insert-wins semantics, modelling iteration-order inserts
into the new_lts HashMap of line 505 (a later insert for the same key
overwrites an earlier one). -/
def lookupLast (n : String) : List (String × String) → Option String
  | [] => none
  | (k, v) :: rest =>
    match lookupLast n rest with
    | some r => some r
    | none => if k == n then some v else none

/-- ChangeLtHelperElider (lines 334-363): a lifetime generic argument is
renamed through the map, an unmapped one becomes the underscore placeholder,
and visiting one sets the helper's has_struct_lt; a reference lifetime is
renamed only when mapped.  Returns the rewritten type together with the
helper's final has_struct_lt flag. -/
def Ty.changeLt (m : List (String × String)) : Ty → Ty × Bool
  | .unit => (.unit, false)
  | .ref lt inner =>
    let r := Ty.changeLt m inner
    (.ref (lt.map fun id => (lookupLast id m).getD id) r.1, r.2)
  | .path n args =>
    (.path n (args.map fun l => (lookupLast l m).getD "_"), !args.isEmpty)

/-- Whether a type contains no lifetime generic argument. -/
def Ty.noArgLt : Ty → Bool
  | .unit => true
  | .ref _ inner => inner.noArgLt
  | .path _ args => args.isEmpty

/-- Rename every lifetime occurrence through a name function (a specification
device used by the proofs; not itself part of the source). -/
def Ty.renameLts (ren : String → String) : Ty → Ty
  | .unit => .unit
  | .ref lt inner => .ref (lt.map ren) (Ty.renameLts ren inner)
  | .path n args => .path n (args.map ren)

/-- Step 1 of fn_lifetime_elider (lines 400-409): both sides of every
where-clause lifetime predicate; of the bounds only the first (line 405
unwraps bounds.first()). -/
def whereCannot (sig : Signature) : List String :=
  match sig.generics.whereClause with
  | none => []
  | some preds => preds.foldl (fun acc wp => acc ++ [wp.lhs, wp.bound0]) []

/-- Lifetimes of the return type (lines 410-418). -/
def outputLts (sig : Signature) : List String :=
  match sig.output with
  | none => []
  | some ty => ty.lts

/-- cannot_elide: where-clause lifetimes plus return-type lifetimes. -/
def cannotElide (sig : Signature) : List String :=
  whereCannot sig ++ outputLts sig

/-- Lifetimes of the typed inputs, in order (lines 424-432). -/
def inputLts (sig : Signature) : List String :=
  sig.inputs.foldl
    (fun acc a =>
      match a with
      | .receiver => acc
      | .typed t => acc ++ t.lts) []

/-- Lifetimes inside the non-lifetime generic parameters (lines 443-449). -/
def genParamLts (sig : Signature) : List String :=
  sig.generics.params.foldl
    (fun acc gp =>
      match gp with
      | .lifetimeParam _ => acc
      | .typeParam _ b => acc ++ b.lts) []

/-- The usage vector v: inputs (lines 424-432), then output (436-442), then
non-lifetime generic parameters (443-449). -/
def usageList (sig : Signature) : List String :=
  inputLts sig ++ outputLts sig ++ genParamLts sig

/-- The usage-count map of lines 450-455 (occurrences in v; an absent key is
count zero). -/
def cntOf (sig : Signature) (n : String) : Nat :=
  (usageList sig).count n

/-- The generic-parameter filter of lines 484-502: keep a lifetime parameter
iff its name occurs in the usage map and it is used more than once or is in
cannot_elide; keep every non-lifetime parameter. -/
def keepParam (cannot : List String) (cnt : String → Nat) : GenericParam → Bool
  | .lifetimeParam n =>
    if cnt n = 0 then false else decide (1 < cnt n) || cannot.contains n
  | .typeParam _ _ => true

/-- Whether an input is a receiver (lines 424-434). -/
def hasReceiver (sig : Signature) : Bool :=
  sig.inputs.any fun a =>
    match a with
    | .receiver => true
    | .typed _ => false

/-- Canonical fresh lifetime names of lines 510-512 (tick dropped). -/
def mkLt (k : Nat) : String := "lt" ++ toString k

/-- The renumbering loop of lines 504-516: every surviving lifetime parameter
gets the canonical name for its position among lifetime parameters, and the
old-to-new pairs are recorded in insertion order (`lookupLast` realizes the
HashMap's last-insert-wins). -/
def renumber : List GenericParam → Nat → List GenericParam × List (String × String)
  | [], _ => ([], [])
  | .lifetimeParam n :: rest, k =>
    let r := renumber rest (k + 1)
    (.lifetimeParam (mkLt k) :: r.1, (n, mkLt k) :: r.2)
  | gp :: rest, k =>
    let r := renumber rest k
    (gp :: r.1, r.2)

/-- Whether a generic parameter is a lifetime parameter. -/
def isLtParam : GenericParam → Bool
  | .lifetimeParam _ => true
  | .typeParam _ _ => false

/-- The where-clause renaming of lines 530-553: lhs and all bounds are renamed
when mapped, otherwise left unchanged. -/
def renamePred (m : List (String × String)) (wp : WherePred) : WherePred :=
  { lhs := (lookupLast wp.lhs m).getD wp.lhs,
    bound0 := (lookupLast wp.bound0 m).getD wp.bound0,
    boundRest := wp.boundRest.map fun b => (lookupLast b m).getD b }

/-- FnLifetimeEliderArgHelper (lines 297-315): strip the type of a typed
input, leave a receiver alone. -/
def stripArg (cannot : List String) (cnt : String → Nat) : FnArg → FnArg
  | .receiver => .receiver
  | .typed t => .typed (Ty.strip cannot cnt t)

/-- ChangeLt on one input (lines 554-567). -/
def changeArg (m : List (String × String)) : FnArg → FnArg
  | .receiver => .receiver
  | .typed t => .typed (Ty.changeLt m t).1

/-- The has_struct_lt flag a ChangeLt helper run on one input reports. -/
def argSaw (m : List (String × String)) : FnArg → Bool
  | .receiver => false
  | .typed t => (Ty.changeLt m t).2

/-- The strip pass over a generic parameter (lines 474-483): only the types
inside non-lifetime parameters are visited. -/
def stripGp (cannot : List String) (cnt : String → Nat) :
    GenericParam → GenericParam
  | .lifetimeParam n => .lifetimeParam n
  | .typeParam n b => .typeParam n (Ty.strip cannot cnt b)

/-- ChangeLt on a generic parameter (lines 517-529): only non-lifetime
parameters are visited. -/
def changeGp (m : List (String × String)) : GenericParam → GenericParam
  | .lifetimeParam n => .lifetimeParam n
  | .typeParam n b => .typeParam n (Ty.changeLt m b).1

/-- The has_struct_lt flag a ChangeLt helper run on one generic parameter
reports. -/
def gpSaw (m : List (String × String)) : GenericParam → Bool
  | .lifetimeParam _ => false
  | .typeParam _ b => (Ty.changeLt m b).2

/-- Result of one fn_lifetime_elider visit.  `sawGenericArgLt` is a ghost
output recording what the ChangeLtHelperElider instances observed during step
5; the source (lines 524-526, 561-563, 575-577) reads each helper's
has_struct_lt before running the visit, while the field still holds the
freshly initialized false, so the visitor's hasStructLt is never updated and
simply keeps its incoming value. -/
structure ElideOut where
  sig : Signature
  annotationsLeft : Bool
  hasStructLt : Bool
  sawGenericArgLt : Bool
deriving Repr

/-- `fn_lifetime_elider` (lines 395-584), composed from the stage functions
above in source order: collect cannot_elide and the usage counts, return
unchanged when a receiver is present, strip the inputs, the output and the
non-lifetime generic parameters, filter the lifetime parameters, renumber the
survivors, and propagate the renaming through generic parameters, where
clause, inputs and output. -/
def fn_lifetime_elider (a0 h0 : Bool) (sig : Signature) : ElideOut :=
  if hasReceiver sig then
    { sig := sig, annotationsLeft := a0, hasStructLt := h0,
      sawGenericArgLt := false }
  else
    let cannot := cannotElide sig
    let cnt := cntOf sig
    let inputs1 := sig.inputs.map (stripArg cannot cnt)
    let output1 := sig.output.map (Ty.strip cannot cnt)
    let params1 := sig.generics.params.map (stripGp cannot cnt)
    let params2 := params1.filter (keepParam cannot cnt)
    let r := renumber params2 0
    let annot := a0 || params2.any isLtParam
    let params4 := r.1.map (changeGp r.2)
    let wc2 := sig.generics.whereClause.map fun preds =>
      preds.map (renamePred r.2)
    let inputs2 := inputs1.map (changeArg r.2)
    let output2 := output1.map fun t => (Ty.changeLt r.2 t).1
    let saw := r.1.any (gpSaw r.2) || inputs1.any (argSaw r.2) ||
      (output1.map fun t => (Ty.changeLt r.2 t).2).getD false
    { sig := { generics := { params := params4, whereClause := wc2 },
               inputs := inputs2, output := output2 },
      annotationsLeft := annot,
      hasStructLt := h0,
      sawGenericArgLt := saw }

structure ElideLifetimeResult where
  success : Bool
  annotations_left : Bool
  has_struct_lt : Bool
deriving DecidableEq, Repr

/-- One name-guarded visit (lines 366-392): process the signature when the
item name equals the target. -/
def elideSigStep (fnName : String) (st : Bool × Bool) (n : String)
    (sig : Signature) : Signature × (Bool × Bool) :=
  if n == fnName then
    let r := fn_lifetime_elider st.1 st.2 sig
    (r.sig, (r.annotationsLeft, r.hasStructLt))
  else (sig, st)

/-- The visitor over the methods of an impl or trait block, threading the
accumulated flags. -/
def elideMethods (fnName : String) :
    List (String × Signature) → Bool × Bool →
      List (String × Signature) × (Bool × Bool)
  | [], st => ([], st)
  | (n, sig) :: rest, st =>
    let r := elideSigStep fnName st n sig
    let rr := elideMethods fnName rest r.2
    ((n, r.1) :: rr.1, rr.2)

/-- FnLifetimeElider over the items of a file (lines 365-393). -/
def elideItems (fnName : String) :
    List Item → Bool × Bool → List Item × (Bool × Bool)
  | [], st => ([], st)
  | .fn n sig :: rest, st =>
    let r := elideSigStep fnName st n sig
    let rr := elideItems fnName rest r.2
    (.fn n r.1 :: rr.1, rr.2)
  | .implBlock ms :: rest, st =>
    let r := elideMethods fnName ms st
    let rr := elideItems fnName rest r.2
    (.implBlock r.1 :: rr.1, rr.2)
  | .traitBlock ms :: rest, st =>
    let r := elideMethods fnName ms st
    let rr := elideItems fnName rest r.2
    (.traitBlock r.1 :: rr.1, rr.2)
  | .other :: rest, st =>
    let rr := elideItems fnName rest st
    (.other :: rr.1, rr.2)

/-- `elide_lifetimes_annotations` (lines 599-617): visit the file with both
visitor flags initialized false, rewrite it, and return the result with
success always true. -/
def elide_lifetimes_annotations (file : List Item) (fn_name : String) :
    List Item × ElideLifetimeResult :=
  let r := elideItems fn_name file (false, false)
  (r.1, { success := true, annotations_left := r.2.1, has_struct_lt := r.2.2 })

/-- The lifetime-parameter names of a parameter list, in order. -/
def ltNames (ps : List GenericParam) : List String :=
  ps.filterMap fun gp =>
    match gp with
    | .lifetimeParam n => some n
    | .typeParam _ _ => none

/-- The declared lifetime-parameter names of a signature, in order. -/
def declaredLts (sig : Signature) : List String :=
  ltNames sig.generics.params

/-- The declared names the source's generic-parameter filter keeps. -/
def survivors (sig : Signature) : List String :=
  (declaredLts sig).filter fun n =>
    keepParam (cannotElide sig) (cntOf sig) (.lifetimeParam n)

/-- Spec vocabulary: usage count of a name among the typed input parameters. -/
def usesAmongInputs (sig : Signature) (n : String) : Nat :=
  (inputLts sig).count n

/-- Spec vocabulary: the name appears in the return type. -/
def usesInReturn (sig : Signature) (n : String) : Bool :=
  (outputLts sig).contains n

/-- Spec vocabulary: the name appears in some where-clause lifetime predicate
(either side, any bound). -/
def inWhereAny (sig : Signature) (n : String) : Bool :=
  (sig.generics.whereClause.getD []).any fun wp =>
    wp.lhs == n || wp.bound0 == n || wp.boundRest.contains n

/-- Spec vocabulary: the name is the left-hand side or the first bound of some
where-clause predicate. -/
def inWhereHead (sig : Signature) (n : String) : Bool :=
  (sig.generics.whereClause.getD []).any fun wp =>
    wp.lhs == n || wp.bound0 == n

/-- The claim's survival condition, in the claim's own vocabulary: used at
least twice across the typed inputs, or appears in the return type, or
appears in a where-clause lifetime predicate. -/
def claimKeep (sig : Signature) (n : String) : Bool :=
  decide (2 ≤ usesAmongInputs sig n) || usesInReturn sig n || inWhereAny sig n

/-- The corrected survival condition, in spec vocabulary: total usage across
typed inputs, return type and non-lifetime generic parameters at least one,
and (at least two, or in the return type, or the lhs/first bound of a
where-clause predicate). -/
def specKeep (sig : Signature) (n : String) : Bool :=
  let total := usesAmongInputs sig n + (outputLts sig).count n +
    (genParamLts sig).count n
  decide (1 ≤ total) &&
    (decide (2 ≤ total) || usesInReturn sig n || inWhereHead sig n)

/-- The lifetimes one input contributes to the usage vector. -/
def argLts : FnArg → List String
  | .receiver => []
  | .typed t => Ty.lts t

/-- The lifetimes one generic parameter contributes to the usage vector. -/
def gpLts : GenericParam → List String
  | .lifetimeParam _ => []
  | .typeParam _ b => Ty.lts b

/-- The two names one where-clause predicate contributes to cannot_elide. -/
def predHeadNames (wp : WherePred) : List String := [wp.lhs, wp.bound0]

/-- Pairwise distinctness of a name list. -/
def distinctB : List String → Bool
  | [] => true
  | x :: xs => !(xs.contains x) && distinctB xs

/-- No lifetime occurs in generic-argument position anywhere in the
signature. -/
def sigNoArgLt (sig : Signature) : Bool :=
  (sig.inputs.all fun a =>
    match a with
    | .receiver => true
    | .typed t => t.noArgLt) &&
  (match sig.output with
   | none => true
   | some t => t.noArgLt) &&
  (sig.generics.params.all fun gp =>
    match gp with
    | .lifetimeParam _ => true
    | .typeParam _ b => b.noArgLt)

/-- Idempotence side condition on one item: every matching signature has
pairwise distinct declared lifetime parameters and no generic-argument
lifetime. -/
def itemElideOK (fnName : String) : Item → Bool
  | .fn n sig =>
    !(n == fnName) || (distinctB (declaredLts sig) && sigNoArgLt sig)
  | .implBlock ms => ms.all fun m =>
    !(m.1 == fnName) || (distinctB (declaredLts m.2) && sigNoArgLt m.2)
  | .traitBlock ms => ms.all fun m =>
    !(m.1 == fnName) || (distinctB (declaredLts m.2) && sigNoArgLt m.2)
  | .other => true

/-- What one elider visit contributes to the annotations_left flag. -/
def elideContribution (sig : Signature) : Bool :=
  if hasReceiver sig then false else !(survivors sig).isEmpty

/-- What one item contributes to the annotations_left flag of a file visit. -/
def itemContribution (fnName : String) : Item → Bool
  | .fn n sig => (n == fnName) && elideContribution sig
  | .implBlock ms => ms.any fun m => (m.1 == fnName) && elideContribution m.2
  | .traitBlock ms => ms.any fun m => (m.1 == fnName) && elideContribution m.2
  | .other => false

/-- What a file visit contributes to annotations_left. -/
def fileContribution (fnName : String) (items : List Item) : Bool :=
  items.any (itemContribution fnName)

/-- The signature transformation of one elider visit (it does not depend on
the incoming visitor flags). -/
def elideSig (sig : Signature) : Signature :=
  (fn_lifetime_elider false false sig).sig

/-- The pure item transformation of a file visit. -/
def elideItemMap (fnName : String) : Item → Item
  | .fn n sig => .fn n (if n == fnName then elideSig sig else sig)
  | .implBlock ms =>
    .implBlock (ms.map fun m =>
      (m.1, if m.1 == fnName then elideSig m.2 else m.2))
  | .traitBlock ms =>
    .traitBlock (ms.map fun m =>
      (m.1, if m.1 == fnName then elideSig m.2 else m.2))
  | .other => .other

/-- Observable for the counterexamples: every lifetime occurrence in the
signatures of a file (usage vector of each item, in order). -/
def itemLtsAll : Item → List String
  | .fn _ sig => usageList sig
  | .implBlock ms => ms.foldl (fun acc m => acc ++ usageList m.2) []
  | .traitBlock ms => ms.foldl (fun acc m => acc ++ usageList m.2) []
  | .other => []

/-- All signature lifetime occurrences of a file. -/
def fileLtsAll (file : List Item) : List String :=
  file.foldl (fun acc it => acc ++ itemLtsAll it) []

/-- The surviving parameter list before renumbering (stage params2 of the
elider, for a receiver-free signature). -/
def eParams2 (sig : Signature) : List GenericParam :=
  (sig.generics.params.map (stripGp (cannotElide sig) (cntOf sig))).filter
    (keepParam (cannotElide sig) (cntOf sig))

/-- The old-to-new renaming pairs the elider's renumbering produces. -/
def eMap (sig : Signature) : List (String × String) :=
  (renumber (eParams2 sig) 0).2

/-- The renaming function the elider's map realizes. -/
def eRen (sig : Signature) (n : String) : String :=
  (lookupLast n (eMap sig)).getD n

/-- The inputs after the strip stage. -/
def eStripInputs (sig : Signature) : List FnArg :=
  sig.inputs.map (stripArg (cannotElide sig) (cntOf sig))

/-- The generic parameters after the strip stage. -/
def eStripParams (sig : Signature) : List GenericParam :=
  sig.generics.params.map (stripGp (cannotElide sig) (cntOf sig))

/-- The usage vector of the stripped regions, before renaming. -/
def eStripUsage (sig : Signature) : List String :=
  (eStripInputs sig).flatMap argLts ++ outputLts sig ++
    (eStripParams sig).flatMap gpLts

/-! ### Callee renamer (RenameFn / callee_renamer, src/common.rs 622-698) -/

/-! Expressions, as far as the renamer visits them: call expressions (the
callee path as its token string), method calls, and opaque leaves. -/

mutual

inductive Expr where
  | lit : Expr
  | call (func : String) (args : ExprList) : Expr
  | methodCall (recv : Expr) (method : String) (args : ExprList) : Expr

inductive ExprList where
  | nil : ExprList
  | cons (e : Expr) (rest : ExprList) : ExprList

end

/-! RenameFn on expressions (lines 627-649).  A call whose callee contains the
target name has the marker removed from the callee; its arguments are visited
in both cases (line 648 recurses after the match).  A method call whose method
name contains the target name is renamed and, per the source, NOT recursed
into (the true arm of lines 630-633 does not call the default visit);
otherwise the receiver and arguments are visited. -/

mutual

def renameExpr (name suf : String) : Expr → Expr
  | .lit => .lit
  | .call f args =>
    .call (if strContains f name then strReplace f suf "" else f)
      (renameExprList name suf args)
  | .methodCall recv m args =>
    if strContains m name then .methodCall recv (strReplace m suf "") args
    else .methodCall (renameExpr name suf recv) m (renameExprList name suf args)

def renameExprList (name suf : String) : ExprList → ExprList
  | .nil => .nil
  | .cons e rest => .cons (renameExpr name suf e) (renameExprList name suf rest)

end

/-- An item as the renamer sees it: a free function, an impl block or a trait
block with named method bodies. -/
inductive RItem where
  | fnDef (name : String) (body : ExprList) : RItem
  | rimplBlock (methods : List (String × ExprList)) : RItem
  | rtraitBlock (methods : List (String × ExprList)) : RItem

/-- RenameFn on one method: rename the identifier when it contains the target
name, then visit the body (lines 650-660, 673-683 recurse after the match). -/
def renameMethod (name suf : String) (m : String × ExprList) :
    String × ExprList :=
  (if strContains m.1 name then strReplace m.1 suf "" else m.1,
   renameExprList name suf m.2)

/-- RenameFn on one item (lines 650-683). -/
def renameRItem (name suf : String) : RItem → RItem
  | .fnDef n body =>
    .fnDef (if strContains n name then strReplace n suf "" else n)
      (renameExprList name suf body)
  | .rimplBlock ms => .rimplBlock (ms.map (renameMethod name suf))
  | .rtraitBlock ms => .rtraitBlock (ms.map (renameMethod name suf))

/-- The fixed marker suffix of line 693. -/
def markerSuffix : String := "____EXTRACT_THIS"

/-- `callee_renamer` (lines 686-698). -/
def callee_renamer (file : List RItem) (fn_name : String) : List RItem :=
  file.map (renameRItem fn_name markerSuffix)

/-! All identifiers of an expression (callee paths, method names). -/

mutual

def exprIdents : Expr → List String
  | .lit => []
  | .call f args => f :: exprListIdents args
  | .methodCall recv m args => m :: (exprIdents recv ++ exprListIdents args)

def exprListIdents : ExprList → List String
  | .nil => []
  | .cons e rest => exprIdents e ++ exprListIdents rest

end

/-- All identifiers of an item: its own name / method names and those of the
bodies. -/
def ritemIdents : RItem → List String
  | .fnDef n body => n :: exprListIdents body
  | .rimplBlock ms => ms.flatMap fun m => m.1 :: exprListIdents m.2
  | .rtraitBlock ms => ms.flatMap fun m => m.1 :: exprListIdents m.2

/-- All identifiers of a file. -/
def fileIdents (file : List RItem) : List String :=
  file.flatMap ritemIdents

/-! The identifiers the renamer never visits: those inside the receiver or the
arguments of a method call whose method name contains the target name (the
true arm of the method-call visitor stops the traversal there). -/

mutual

def exprPruned (name : String) : Expr → List String
  | .lit => []
  | .call _ args => exprListPruned name args
  | .methodCall recv m args =>
    if strContains m name then exprIdents recv ++ exprListIdents args
    else exprPruned name recv ++ exprListPruned name args

def exprListPruned (name : String) : ExprList → List String
  | .nil => []
  | .cons e rest => exprPruned name e ++ exprListPruned name rest

end

/-- The unvisited identifiers of an item. -/
def ritemPruned (name : String) : RItem → List String
  | .fnDef _ body => exprListPruned name body
  | .rimplBlock ms => ms.flatMap fun m => exprListPruned name m.2
  | .rtraitBlock ms => ms.flatMap fun m => exprListPruned name m.2

/-- The unvisited identifiers of a file. -/
def filePruned (name : String) (file : List RItem) : List String :=
  file.flatMap (ritemPruned name)

end Rem

namespace Rem

/-! ## Lemmas about the drivers -/

/-- Bounded termination of the file-level driver loop: from any state whose
count is below the budget, enough fuel yields a final state whose count and
total invocation tally respect the budget. -/
theorem repairIterationGo_terminates (out : Nat → CmdOutcome)
    (pe : String → Bool) (mi : Int) :
    ∀ (fuel k : Nat) (count : Int), count < mi →
      (mi - count).toNat ≤ fuel →
      ∃ s c n, repairIterationGo out pe mi fuel k count = some (s, c, n) ∧
        c ≤ mi ∧ n ≤ k + (mi - count).toNat := by
  intro fuel
  induction fuel with
  | zero => intro k count hlt hfuel; omega
  | succ fuel ih =>
    intro k count hlt hfuel
    rw [repairIterationGo]
    by_cases hs : (out k).statusSuccess
    · simp only [hs, if_true]
      exact ⟨true, count, k + 1, rfl, le_of_lt hlt, by omega⟩
    · simp only [hs, if_false, Bool.false_eq_true]
      by_cases hp : pe (out k).stderr = false
      · simp only [hp, if_true]
        exact ⟨false, count + 1, k + 1, rfl, by omega, by omega⟩
      · simp only [hp, if_false]
        by_cases hm : mi == count + 1
        · simp only [hm, if_true]
          have : mi = count + 1 := by exact eq_of_beq hm
          exact ⟨false, count + 1, k + 1, rfl, by omega, by omega⟩
        · simp only [hm, if_false]
          have hne : mi ≠ count + 1 := fun h => by simp [h] at hm
          have hlt1 : count + 1 < mi := by omega
          obtain ⟨s, c, n, heq, hc, hn⟩ := ih (k + 1) (count + 1) hlt1 (by omega)
          exact ⟨s, c, n, heq, hc, by omega⟩

/-- Same bounded-termination statement for the project-level loop. -/
theorem repairIterationProjectGo_terminates (out : Nat → ProjectOutcome)
    (pe : RustcError → Bool) (src : String) (mi : Int) :
    ∀ (fuel k : Nat) (count : Int), count < mi →
      (mi - count).toNat ≤ fuel →
      ∃ s c n, repairIterationProjectGo out pe src mi fuel k count = some (s, c, n) ∧
        c ≤ mi ∧ n ≤ k + (mi - count).toNat := by
  intro fuel
  induction fuel with
  | zero => intro k count hlt hfuel; omega
  | succ fuel ih =>
    intro k count hlt hfuel
    rw [repairIterationProjectGo]
    by_cases hs : (out k).statusSuccess
    · simp only [hs, if_true]
      exact ⟨true, count, k + 1, rfl, le_of_lt hlt, by omega⟩
    · simp only [hs, if_false, Bool.false_eq_true]
      by_cases hp : iterationHelp pe src (out k).records = false
      · simp only [hp, if_true]
        exact ⟨false, count + 1, k + 1, rfl, by omega, by omega⟩
      · simp only [hp, if_false]
        by_cases hm : mi == count + 1
        · simp only [hm, if_true]
          have : mi = count + 1 := by exact eq_of_beq hm
          exact ⟨false, count + 1, k + 1, rfl, by omega, by omega⟩
        · simp only [hm, if_false]
          have hne : mi ≠ count + 1 := fun h => by simp [h] at hm
          have hlt1 : count + 1 < mi := by omega
          obtain ⟨s, c, n, heq, hc, hn⟩ := ih (k + 1) (count + 1) hlt1 (by omega)
          exact ⟨s, c, n, heq, hc, by omega⟩

/-- Adding fuel does not change an already-terminated run of the file-level
loop. -/
theorem repairIterationGo_mono (out : Nat → CmdOutcome) (pe : String → Bool)
    (mi : Int) :
    ∀ (fuel fuel2 k : Nat) (count : Int) (r : Bool × Int × Nat), fuel ≤ fuel2 →
      repairIterationGo out pe mi fuel k count = some r →
      repairIterationGo out pe mi fuel2 k count = some r := by
  intro fuel
  induction fuel with
  | zero => intro fuel2 k count r _ h; simp [repairIterationGo] at h
  | succ fuel ih =>
    intro fuel2 k count r hle h
    obtain ⟨fuel2p, rfl⟩ : ∃ f, fuel2 = f + 1 := ⟨fuel2 - 1, by omega⟩
    rw [repairIterationGo] at h ⊢
    by_cases hs : (out k).statusSuccess
    · simpa [hs] using h
    · simp only [hs, Bool.false_eq_true, if_false] at h ⊢
      by_cases hp : pe (out k).stderr = false
      · simpa [hp] using h
      · simp only [hp, if_false] at h ⊢
        by_cases hm : mi == count + 1
        · simpa [hm] using h
        · simp only [hm, Bool.false_eq_true, if_false] at h ⊢
          exact ih fuel2p (k + 1) (count + 1) r (by omega) h

/-- Adding fuel does not change an already-terminated run of the project-level
loop. -/
theorem repairIterationProjectGo_mono (out : Nat → ProjectOutcome)
    (pe : RustcError → Bool) (src : String) (mi : Int) :
    ∀ (fuel fuel2 k : Nat) (count : Int) (r : Bool × Int × Nat), fuel ≤ fuel2 →
      repairIterationProjectGo out pe src mi fuel k count = some r →
      repairIterationProjectGo out pe src mi fuel2 k count = some r := by
  intro fuel
  induction fuel with
  | zero => intro fuel2 k count r _ h; simp [repairIterationProjectGo] at h
  | succ fuel ih =>
    intro fuel2 k count r hle h
    obtain ⟨fuel2p, rfl⟩ : ∃ f, fuel2 = f + 1 := ⟨fuel2 - 1, by omega⟩
    rw [repairIterationProjectGo] at h ⊢
    by_cases hs : (out k).statusSuccess
    · simpa [hs] using h
    · simp only [hs, Bool.false_eq_true, if_false] at h ⊢
      by_cases hp : iterationHelp pe src (out k).records = false
      · simpa [hp] using h
      · simp only [hp, if_false] at h ⊢
        by_cases hm : mi == count + 1
        · simpa [hm] using h
        · simp only [hm, Bool.false_eq_true, if_false] at h ⊢
          exact ih fuel2p (k + 1) (count + 1) r (by omega) h

/-- If the compile keeps failing, the error processor reports progress on the
first j-1 failures, reports no progress on the j-th, and the budget is not hit
in between, then the file-level loop stops right there with success false,
exactly j new repairs counted and exactly j further invocations. -/
theorem repairIterationGo_noProgress (out : Nat → CmdOutcome) (pe : String → Bool)
    (mi : Int) :
    ∀ (j fuel k0 : Nat) (count0 : Int), 1 ≤ j → j ≤ fuel →
      (∀ i, i < j → (out (k0 + i)).statusSuccess = false) →
      (∀ i, i + 1 < j → pe (out (k0 + i)).stderr = true) →
      pe (out (k0 + (j - 1))).stderr = false →
      (∀ i : Nat, i + 1 < j → count0 + i + 1 ≠ mi) →
      repairIterationGo out pe mi fuel k0 count0 = some (false, count0 + j, k0 + j) := by
  intro j
  induction j with
  | zero => omega
  | succ j ih =>
    intro fuel k0 count0 _ hfuel hfail hprog hstop hbudget
    obtain ⟨fuelp, rfl⟩ : ∃ f, fuel = f + 1 := ⟨fuel - 1, by omega⟩
    rw [repairIterationGo]
    have hf0 : (out k0).statusSuccess = false := by
      have := hfail 0 (by omega); simpa using this
    simp only [hf0, Bool.false_eq_true, if_false]
    rcases Nat.eq_or_lt_of_le (Nat.one_le_iff_ne_zero.mpr (Nat.succ_ne_zero j))
      with h1 | hgt
    · -- j + 1 = 1
      have hj0 : j = 0 := by omega
      subst hj0
      have : pe (out k0).stderr = false := by simpa using hstop
      simp [this]
    · -- j + 1 ≥ 2, so j ≥ 1
      have hj1 : 1 ≤ j := by omega
      have hpe : pe (out k0).stderr = true := by
        have := hprog 0 (by omega); simpa using this
      simp only [hpe, Bool.true_eq_false, if_false]
      have hne : (mi == count0 + 1) = false := by
        have := hbudget 0 (by omega)
        simp only [Nat.cast_zero, add_zero] at this
        exact beq_false_of_ne (fun h => this h.symm)
      simp only [hne, Bool.false_eq_true, if_false]
      have heq := ih fuelp (k0 + 1) (count0 + 1) hj1 (by omega)
        (fun i hi => by
          have h2 : k0 + 1 + i = k0 + (i + 1) := by omega
          rw [h2]; exact hfail (i + 1) (by omega))
        (fun i hi => by
          have h2 : k0 + 1 + i = k0 + (i + 1) := by omega
          rw [h2]; exact hprog (i + 1) (by omega))
        (by
          have hidx : k0 + 1 + (j - 1) = k0 + (j + 1 - 1) := by omega
          rw [hidx]; exact hstop)
        (fun i hi => by
          have := hbudget (i + 1) (by omega)
          push_cast at this ⊢
          intro hcon; apply this; omega)
      rw [heq]
      have e1 : count0 + 1 + (j : Int) = count0 + ((j + 1 : Nat) : Int) := by
        push_cast; ring
      have e2 : k0 + 1 + j = k0 + (j + 1) := by omega
      rw [e1, e2]

/-- Project-level analogue of `repairIterationGo_noProgress`. -/
theorem repairIterationProjectGo_noProgress (out : Nat → ProjectOutcome)
    (pe : RustcError → Bool) (src : String) (mi : Int) :
    ∀ (j fuel k0 : Nat) (count0 : Int), 1 ≤ j → j ≤ fuel →
      (∀ i, i < j → (out (k0 + i)).statusSuccess = false) →
      (∀ i, i + 1 < j → iterationHelp pe src (out (k0 + i)).records = true) →
      iterationHelp pe src (out (k0 + (j - 1))).records = false →
      (∀ i : Nat, i + 1 < j → count0 + i + 1 ≠ mi) →
      repairIterationProjectGo out pe src mi fuel k0 count0 =
        some (false, count0 + j, k0 + j) := by
  intro j
  induction j with
  | zero => omega
  | succ j ih =>
    intro fuel k0 count0 _ hfuel hfail hprog hstop hbudget
    obtain ⟨fuelp, rfl⟩ : ∃ f, fuel = f + 1 := ⟨fuel - 1, by omega⟩
    rw [repairIterationProjectGo]
    have hf0 : (out k0).statusSuccess = false := by
      have := hfail 0 (by omega); simpa using this
    simp only [hf0, Bool.false_eq_true, if_false]
    rcases Nat.eq_or_lt_of_le (Nat.one_le_iff_ne_zero.mpr (Nat.succ_ne_zero j))
      with h1 | hgt
    · have hj0 : j = 0 := by omega
      subst hj0
      have : iterationHelp pe src (out k0).records = false := by simpa using hstop
      simp [this]
    · have hj1 : 1 ≤ j := by omega
      have hpe : iterationHelp pe src (out k0).records = true := by
        have := hprog 0 (by omega); simpa using this
      simp only [hpe, Bool.true_eq_false, if_false]
      have hne : (mi == count0 + 1) = false := by
        have := hbudget 0 (by omega)
        simp only [Nat.cast_zero, add_zero] at this
        exact beq_false_of_ne (fun h => this h.symm)
      simp only [hne, Bool.false_eq_true, if_false]
      have heq := ih fuelp (k0 + 1) (count0 + 1) hj1 (by omega)
        (fun i hi => by
          have h2 : k0 + 1 + i = k0 + (i + 1) := by omega
          rw [h2]; exact hfail (i + 1) (by omega))
        (fun i hi => by
          have h2 : k0 + 1 + i = k0 + (i + 1) := by omega
          rw [h2]; exact hprog (i + 1) (by omega))
        (by
          have hidx : k0 + 1 + (j - 1) = k0 + (j + 1 - 1) := by omega
          rw [hidx]; exact hstop)
        (fun i hi => by
          have := hbudget (i + 1) (by omega)
          push_cast at this ⊢
          intro hcon; apply this; omega)
      rw [heq]
      have e1 : count0 + 1 + (j : Int) = count0 + ((j + 1 : Nat) : Int) := by
        push_cast; ring
      have e2 : k0 + 1 + j = k0 + (j + 1) := by omega
      rw [e1, e2]

/-- The driver flags: whatever the file-level loop returns, the packaged
RepairResult keeps the two elision flags at their initial false value. -/
theorem repair_iteration_flags (out : Nat → CmdOutcome) (pe : String → Bool)
    (mi : Option Int) (fuel : Nat) (r : RepairResult) (n : Nat)
    (h : repair_iteration out pe mi fuel = some (r, n)) :
    r.has_non_elidible_lifetime = false ∧ r.has_struct_lt = false := by
  simp only [repair_iteration] at h
  rcases hgo : repairIterationGo out pe (mi.getD 25) fuel 0 0 with _ | ⟨s, c, k⟩ <;>
    rw [hgo] at h
  · exact absurd h (by simp)
  · simp only [Option.some.injEq, Prod.mk.injEq] at h
    obtain ⟨h1, h2⟩ := h
    exact ⟨by rw [← h1], by rw [← h1]⟩

/-- Project-level analogue of `repair_iteration_flags`. -/
theorem repair_iteration_project_flags (out : Nat → ProjectOutcome)
    (pe : RustcError → Bool) (src : String) (mi : Option Int) (fuel : Nat)
    (r : RepairResult) (n : Nat)
    (h : repair_iteration_project out pe src mi fuel = some (r, n)) :
    r.has_non_elidible_lifetime = false ∧ r.has_struct_lt = false := by
  simp only [repair_iteration_project] at h
  rcases hgo : repairIterationProjectGo out pe src (mi.getD 25) fuel 0 0 with _ | ⟨s, c, k⟩ <;>
    rw [hgo] at h
  · exact absurd h (by simp)
  · simp only [Option.some.injEq, Prod.mk.injEq] at h
    obtain ⟨h1, h2⟩ := h
    exact ⟨by rw [← h1], by rw [← h1]⟩

/-! ## Claim theorems: repair iteration driver -/

/-- C3: for every compile command (modelled by the outcome stream) and every
process_errors function, both driver variants terminate — with the budget as
fuel the loop already reaches a final state, and more fuel gives the same
result — within at most max_iterations (default 25, any positive configured
budget) subprocess invocations, and the repair_count of the returned
RepairResult never exceeds that bound. -/
theorem C3_driver_terminates_within_budget (out : Nat → CmdOutcome)
    (pe : String → Bool) (pout : Nat → ProjectOutcome) (ppe : RustcError → Bool)
    (src : String) (mi : Option Int) (hmi : 0 < mi.getD 25) :
    (∃ (r : RepairResult) (n : Nat), (n : Int) ≤ mi.getD 25 ∧
      r.repair_count ≤ mi.getD 25 ∧
      ∀ fuel, (mi.getD 25).toNat ≤ fuel →
        repair_iteration out pe mi fuel = some (r, n)) ∧
    (∃ (r : RepairResult) (n : Nat), (n : Int) ≤ mi.getD 25 ∧
      r.repair_count ≤ mi.getD 25 ∧
      ∀ fuel, (mi.getD 25).toNat ≤ fuel →
        repair_iteration_project pout ppe src mi fuel = some (r, n)) := by
  constructor
  · obtain ⟨s, c, n, heq, hc, hn⟩ :=
      repairIterationGo_terminates out pe (mi.getD 25) (mi.getD 25).toNat 0 0 hmi
        (by omega)
    refine ⟨RepairResult.mk s c false false, n, by omega, hc, fun fuel hfuel => ?_⟩
    have h2 := repairIterationGo_mono out pe (mi.getD 25) (mi.getD 25).toNat fuel
      0 0 (s, c, n) hfuel heq
    simp [repair_iteration, h2]
  · obtain ⟨s, c, n, heq, hc, hn⟩ :=
      repairIterationProjectGo_terminates pout ppe src (mi.getD 25)
        (mi.getD 25).toNat 0 0 hmi (by omega)
    refine ⟨RepairResult.mk s c false false, n, by omega, hc, fun fuel hfuel => ?_⟩
    have h2 := repairIterationProjectGo_mono pout ppe src (mi.getD 25)
      (mi.getD 25).toNat fuel 0 0 (s, c, n) hfuel heq
    simp [repair_iteration_project, h2]

/-- Witness for C3 at a concrete input: the default budget (25) with an
always-failing compile command and a process_errors that always reports
progress, for both variants. -/
theorem C3_driver_terminates_within_budget_witness :
    (∃ (r : RepairResult) (n : Nat), (n : Int) ≤ (none : Option Int).getD 25 ∧
      r.repair_count ≤ (none : Option Int).getD 25 ∧
      ∀ fuel, ((none : Option Int).getD 25).toNat ≤ fuel →
        repair_iteration (fun _ => ⟨false, "e"⟩) (fun _ => true) none fuel =
          some (r, n)) ∧
    (∃ (r : RepairResult) (n : Nat), (n : Int) ≤ (none : Option Int).getD 25 ∧
      r.repair_count ≤ (none : Option Int).getD 25 ∧
      ∀ fuel, ((none : Option Int).getD 25).toNat ≤ fuel →
        repair_iteration_project (fun _ => ⟨false, []⟩) (fun _ => true) "src" none
          fuel = some (r, n)) :=
  C3_driver_terminates_within_budget (fun _ => ⟨false, "e"⟩) (fun _ => true)
    (fun _ => ⟨false, []⟩) (fun _ => true) "src" none (by decide)

/-- C4: in both driver variants, if the compile fails on the first k
invocations, process_errors reports progress on the first k-1 of them and
reports no progress on the k-th (k at least 1 and below the budget), the
driver stops at iteration k: success is false, repair_count is k, and exactly
k subprocess invocations were made (none after the no-progress report). -/
theorem C4_driver_stops_on_no_progress (out : Nat → CmdOutcome)
    (pe : String → Bool) (pout : Nat → ProjectOutcome) (ppe : RustcError → Bool)
    (src : String) (mi : Option Int) (k fuel : Nat) (hk : 1 ≤ k)
    (hbudget : (k : Int) < mi.getD 25) (hfuel : k ≤ fuel) :
    ((∀ i, i < k → (out i).statusSuccess = false) →
     (∀ i, i + 1 < k → pe (out i).stderr = true) →
     pe (out (k - 1)).stderr = false →
     repair_iteration out pe mi fuel =
       some (RepairResult.mk false (k : Int) false false, k)) ∧
    ((∀ i, i < k → (pout i).statusSuccess = false) →
     (∀ i, i + 1 < k → iterationHelp ppe src (pout i).records = true) →
     iterationHelp ppe src (pout (k - 1)).records = false →
     repair_iteration_project pout ppe src mi fuel =
       some (RepairResult.mk false (k : Int) false false, k)) := by
  constructor
  · intro hfail hprog hstop
    have hgo := repairIterationGo_noProgress out pe (mi.getD 25) k fuel 0 0 hk hfuel
      (fun i hi => by simpa using hfail i hi)
      (fun i hi => by simpa using hprog i hi)
      (by simpa using hstop)
      (fun i hi => by omega)
    simp [repair_iteration, hgo]
  · intro hfail hprog hstop
    have hgo := repairIterationProjectGo_noProgress pout ppe src (mi.getD 25) k fuel
      0 0 hk hfuel
      (fun i hi => by simpa using hfail i hi)
      (fun i hi => by simpa using hprog i hi)
      (by simpa using hstop)
      (fun i hi => by omega)
    simp [repair_iteration_project, hgo]

/-- Witness for C4 at a concrete input: one failing invocation whose
diagnostics yield no progress, k = 1, default budget. -/
theorem C4_driver_stops_on_no_progress_witness :
    repair_iteration (fun _ => ⟨false, "e"⟩) (fun _ => false) none 1 =
      some (RepairResult.mk false 1 false false, 1) ∧
    repair_iteration_project (fun _ => ⟨false, []⟩) (fun _ => false) "src" none 1 =
      some (RepairResult.mk false 1 false false, 1) := by
  have h := C4_driver_stops_on_no_progress (fun _ => ⟨false, "e"⟩) (fun _ => false)
    (fun _ => ⟨false, []⟩) (fun _ => false) "src" none 1 1 (by omega) (by decide)
    (by omega)
  exact ⟨by simpa using h.1 (fun i _ => rfl) (fun i hi => by omega) rfl,
         by simpa using h.2 (fun i _ => rfl) (fun i hi => by omega) rfl⟩

/-- C10: whatever the inputs and outcome, the RepairResult returned by either
driver variant has has_non_elidible_lifetime = false and has_struct_lt =
false: the drivers never set the two elision flags. -/
theorem C10_driver_never_sets_elision_flags (out : Nat → CmdOutcome)
    (pe : String → Bool) (pout : Nat → ProjectOutcome) (ppe : RustcError → Bool)
    (src : String) (mi : Option Int) (fuel : Nat) (r r2 : RepairResult)
    (n n2 : Nat) :
    (repair_iteration out pe mi fuel = some (r, n) →
      r.has_non_elidible_lifetime = false ∧ r.has_struct_lt = false) ∧
    (repair_iteration_project pout ppe src mi fuel = some (r2, n2) →
      r2.has_non_elidible_lifetime = false ∧ r2.has_struct_lt = false) :=
  ⟨fun h => repair_iteration_flags out pe mi fuel r n h,
   fun h => repair_iteration_project_flags pout ppe src mi fuel r2 n2 h⟩

/-- Witness for C10 at a concrete input: an immediately-succeeding compile
command for both variants. -/
theorem C10_driver_never_sets_elision_flags_witness :
    (RepairResult.mk true 0 false false).has_non_elidible_lifetime = false ∧
    (RepairResult.mk true 0 false false).has_struct_lt = false := by
  have h := C10_driver_never_sets_elision_flags (fun _ => ⟨true, ""⟩)
    (fun _ => true) (fun _ => ⟨true, []⟩) (fun _ => true) "src" none 1
    (RepairResult.mk true 0 false false) (RepairResult.mk true 0 false false) 1 1
  exact h.1 (by simp [repair_iteration, repairIterationGo])

/-! ## Claim theorems: suggestion patcher -/

/-- C7: a diagnostic stream whose single record yields exactly one help capture
proposing a replacement for line 3, run against a five-line file, replaces
exactly line 3 and preserves lines 1, 2, 4, 5 verbatim, and the function
returns true precisely when the replacement was applied (the only capture is
applied exactly when it does not contain the generic-lifetime placeholder
guard). -/
theorem C7_patcher_replaces_line3 (l1 l2 l3 l4 l5 repl : String)
    (records : List (Except String RustcError)) (stderr : String)
    (hrec : records.length = 1) :
    (strContains repl lifetimeGuard = false →
      repair_standard_help (fun _ => [⟨"3", repl⟩]) records stderr
        [l1, l2, l3, l4, l5] = ([l1, l2, repl, l4, l5], true)) ∧
    (strContains repl lifetimeGuard = true →
      repair_standard_help (fun _ => [⟨"3", repl⟩]) records stderr
        [l1, l2, l3, l4, l5] = ([l1, l2, l3, l4, l5], false)) := by
  obtain ⟨r, rfl⟩ : ∃ r, records = [r] := by
    cases records with
    | nil => simp at hrec
    | cons a t =>
      cases t with
      | nil => exact ⟨a, rfl⟩
      | cons b t2 => simp at hrec
  have h3 : parseNat "3" = some 3 := rfl
  constructor
  · intro h
    simp [repair_standard_help, applyCaptures, h3, h, List.range_succ]
  · intro h
    simp [repair_standard_help, applyCaptures, h3, h]

/-- Witness for C7 at a concrete input. -/
theorem C7_patcher_replaces_line3_witness :
    repair_standard_help (fun _ => [⟨"3", "let x = &y;"⟩]) [Except.error "bad"]
      "boom" ["a1", "a2", "a3", "a4", "a5"] =
      (["a1", "a2", "let x = &y;", "a4", "a5"], true) :=
  (C7_patcher_replaces_line3 "a1" "a2" "a3" "a4" "a5" "let x = &y;"
    [Except.error "bad"] "boom" rfl).1 (by decide)

/-! ## Lemmas about the bound inserter -/

/-- The bounder establishes its predicate. -/
theorem sigHasPred_bounder (a b : String) (sig : Signature) :
    sigHasPred a b (fn_lifetime_bounder a b sig) = true := by
  simp [sigHasPred, fn_lifetime_bounder]

/-- The bounder keeps previously present predicates (it only appends). -/
theorem sigHasPred_bounder_mono (a b c d : String) (sig : Signature)
    (h : sigHasPred a b sig = true) :
    sigHasPred a b (fn_lifetime_bounder c d sig) = true := by
  unfold sigHasPred fn_lifetime_bounder at *
  simp only [Option.getD_some, List.any_append, Bool.or_eq_true]
  exact Or.inl h

/-- The visitor's success on one item is exactly whether that item matches. -/
theorem bounderItem_snd (f a b : String) (it : Item) :
    (bounderItem f a b it).2 = itemMatches f it := by
  cases it with
  | fn n sig => by_cases h : n = f <;> simp [bounderItem, itemMatches, h]
  | implBlock ms => rfl
  | traitBlock ms => rfl
  | other => rfl

/-- The visitor does not change which members match any name. -/
theorem itemMatches_bounderItem (f g a b : String) (it : Item) :
    itemMatches f (bounderItem g a b it).1 = itemMatches f it := by
  cases it with
  | fn n sig =>
    simp only [bounderItem]
    split <;> rfl
  | implBlock ms =>
    simp only [bounderItem, itemMatches, List.any_map]
    congr 1
    funext m
    simp only [Function.comp]
    split <;> rfl
  | traitBlock ms =>
    simp only [bounderItem, itemMatches, List.any_map]
    congr 1
    funext m
    simp only [Function.comp]
    split <;> rfl
  | other => rfl

/-- An item with no matching member trivially satisfies the predicate
condition. -/
theorem itemPredOK_of_not_matches (f a b : String) (it : Item)
    (h : itemMatches f it = false) : itemPredOK f a b it = true := by
  cases it with
  | fn n sig => simp [itemMatches] at h; simp [itemPredOK, h]
  | implBlock ms =>
    simp [itemMatches] at h
    simp only [itemPredOK, List.all_eq_true]
    intro m hm
    simp [h m.1 m.2 hm]
  | traitBlock ms =>
    simp [itemMatches] at h
    simp only [itemPredOK, List.all_eq_true]
    intro m hm
    simp [h m.1 m.2 hm]
  | other => rfl

/-- After visiting an item with the target name and constraint a: b, every
matching member carries the predicate. -/
theorem itemPredOK_bounderItem_self (f a b : String) (it : Item) :
    itemPredOK f a b (bounderItem f a b it).1 = true := by
  cases it with
  | fn n sig =>
    by_cases h : n = f <;> simp [bounderItem, itemPredOK, h, sigHasPred_bounder]
  | implBlock ms =>
    simp only [bounderItem, itemPredOK, List.all_map, List.all_eq_true]
    intro m hm
    simp only [Function.comp]
    by_cases h : m.1 = f <;> simp [h, sigHasPred_bounder]
  | traitBlock ms =>
    simp only [bounderItem, itemPredOK, List.all_map, List.all_eq_true]
    intro m hm
    simp only [Function.comp]
    by_cases h : m.1 = f <;> simp [h, sigHasPred_bounder]
  | other => rfl

/-- Visiting with any constraint keeps an already established predicate. -/
theorem itemPredOK_bounderItem_mono (f g a b c d : String) (it : Item)
    (h : itemPredOK f a b it = true) :
    itemPredOK f a b (bounderItem g c d it).1 = true := by
  cases it with
  | fn n sig =>
    by_cases hg : n = g
    · subst hg
      by_cases hf : n = f
      · simp only [itemPredOK, hf, beq_self_eq_true, Bool.not_true,
          Bool.false_or] at h
        simp [bounderItem, itemPredOK, hf, sigHasPred_bounder_mono a b c d sig h]
      · simp [bounderItem, itemPredOK, hf]
    · simpa [bounderItem, itemPredOK, hg] using h
  | implBlock ms =>
    simp only [itemPredOK, List.all_eq_true] at h
    simp only [bounderItem, itemPredOK, List.all_map, List.all_eq_true]
    intro m hm
    simp only [Function.comp]
    by_cases hg : m.1 = g
    · have hcond : (m.1 == g) = true := by simp [hg]
      by_cases hf : m.1 = f
      · have hp := h m hm
        simp only [hf, beq_self_eq_true, Bool.not_true, Bool.false_or] at hp
        have hfg : f = g := by rw [← hf]; exact hg
        simp [hf, hfg, sigHasPred_bounder_mono a b c d m.2 hp]
      · simp [hcond, hf]
    · have hcond : (m.1 == g) = false := by simp [hg]
      have hp := h m hm
      simpa [hcond] using hp
  | traitBlock ms =>
    simp only [itemPredOK, List.all_eq_true] at h
    simp only [bounderItem, itemPredOK, List.all_map, List.all_eq_true]
    intro m hm
    simp only [Function.comp]
    by_cases hg : m.1 = g
    · have hcond : (m.1 == g) = true := by simp [hg]
      by_cases hf : m.1 = f
      · have hp := h m hm
        simp only [hf, beq_self_eq_true, Bool.not_true, Bool.false_or] at hp
        have hfg : f = g := by rw [← hf]; exact hg
        simp [hf, hfg, sigHasPred_bounder_mono a b c d m.2 hp]
      · simp [hcond, hf]
    · have hcond : (m.1 == g) = false := by simp [hg]
      have hp := h m hm
      simpa [hcond] using hp
  | other => exact h

/-- File-level visitor success equals the existence of a matching item. -/
theorem bounderFile_snd (f a b : String) (file : List Item) :
    (bounderFile f a b file).2 = hasMatch f file := by
  unfold bounderFile hasMatch
  simp only [bounderItem_snd]

/-- The file-level visitor preserves which names match. -/
theorem hasMatch_bounderFile (f g a b : String) (file : List Item) :
    hasMatch f (bounderFile g a b file).1 = hasMatch f file := by
  unfold bounderFile hasMatch
  simp only [List.any_map]
  congr 1
  funext it
  exact itemMatches_bounderItem f g a b it

/-- After the file-level visit with the target name, every item satisfies the
predicate condition. -/
theorem bounderFile_establishes (f a b : String) (file : List Item) :
    ∀ it ∈ (bounderFile f a b file).1, itemPredOK f a b it = true := by
  intro it hit
  unfold bounderFile at hit
  simp only [List.mem_map] at hit
  obtain ⟨it0, _, rfl⟩ := hit
  exact itemPredOK_bounderItem_self f a b it0

/-- The file-level visit with any constraint keeps established predicates. -/
theorem bounderFile_mono (f g a b c d : String) (file : List Item)
    (h : ∀ it ∈ file, itemPredOK f a b it = true) :
    ∀ it ∈ (bounderFile g c d file).1, itemPredOK f a b it = true := by
  intro it hit
  unfold bounderFile at hit
  simp only [List.mem_map] at hit
  obtain ⟨it0, hmem, rfl⟩ := hit
  exact itemPredOK_bounderItem_mono f g a b c d it0 (h it0 hmem)

/-- One capture step preserves which names match. -/
theorem boundsStep_hasMatch (f g : String) (st : List Item × Bool)
    (cap : String × String) :
    hasMatch f (boundsStep g st cap).1 = hasMatch f st.1 := by
  simp only [boundsStep]
  split
  · exact hasMatch_bounderFile f g cap.1 cap.2 st.1
  · rfl

/-- One capture step keeps established predicates. -/
theorem boundsStep_pred_mono (f g a b : String) (st : List Item × Bool)
    (cap : String × String) (h : ∀ it ∈ st.1, itemPredOK f a b it = true) :
    ∀ it ∈ (boundsStep g st cap).1, itemPredOK f a b it = true := by
  simp only [boundsStep]
  split
  · exact bounderFile_mono f g a b cap.1 cap.2 st.1 h
  · exact h

/-- Processing the capture (a, b) establishes the predicate a: b in every item
(when nothing matches, the condition holds vacuously). -/
theorem boundsStep_establishes (f a b : String) (st : List Item × Bool) :
    ∀ it ∈ (boundsStep f st (a, b)).1, itemPredOK f a b it = true := by
  simp only [boundsStep]
  split
  · exact bounderFile_establishes f a b st.1
  · next hfalse =>
    intro it hit
    have hnom : hasMatch f st.1 = false := by
      have := bounderFile_snd f a b st.1
      simp only [Bool.not_eq_true] at hfalse
      rw [← this]; exact hfalse
    refine itemPredOK_of_not_matches f a b it ?_
    unfold hasMatch at hnom
    simpa using List.any_eq_false.mp hnom it hit

/-- The capture fold keeps established predicates. -/
theorem foldl_boundsStep_pred_mono (f a b : String)
    (caps : List (String × String)) :
    ∀ st : List Item × Bool, (∀ it ∈ st.1, itemPredOK f a b it = true) →
      ∀ it ∈ (caps.foldl (boundsStep f) st).1, itemPredOK f a b it = true := by
  induction caps with
  | nil => intro st h; exact h
  | cons c rest ih =>
    intro st h
    exact ih (boundsStep f st c) (boundsStep_pred_mono f f a b st c h)

/-- If the capture list contains (a, b), the fold establishes the predicate. -/
theorem foldl_boundsStep_establishes (f a b : String) :
    ∀ caps : List (String × String), (a, b) ∈ caps →
      ∀ st : List Item × Bool,
        ∀ it ∈ (caps.foldl (boundsStep f) st).1, itemPredOK f a b it = true := by
  intro caps
  induction caps with
  | nil => intro hmem; cases hmem
  | cons c rest ih =>
    intro hmem st
    rcases List.mem_cons.mp hmem with hc | hrest
    · rw [List.foldl_cons, ← hc]
      exact foldl_boundsStep_pred_mono f a b rest (boundsStep f st (a, b))
        (boundsStep_establishes f a b st)
    · exact ih hrest (boundsStep f st c)

/-- The capture fold preserves which names match. -/
theorem foldl_boundsStep_hasMatch (f g : String) (caps : List (String × String)) :
    ∀ st : List Item × Bool,
      hasMatch f (caps.foldl (boundsStep g) st).1 = hasMatch f st.1 := by
  induction caps with
  | nil => intro st; rfl
  | cons c rest ih =>
    intro st
    rw [List.foldl_cons, ih (boundsStep g st c), boundsStep_hasMatch f g st c]

/-- The helped flag after the capture fold: sticky start, else progress exactly
when there was a capture and a matching item. -/
theorem foldl_boundsStep_helped (f : String) (caps : List (String × String)) :
    ∀ st : List Item × Bool,
      (caps.foldl (boundsStep f) st).2 =
        (st.2 || (!caps.isEmpty && hasMatch f st.1)) := by
  induction caps with
  | nil => intro st; simp
  | cons c rest ih =>
    intro st
    rw [List.foldl_cons, ih (boundsStep f st c), boundsStep_hasMatch f f st c]
    by_cases hm : hasMatch f st.1 = true
    · have hsnd : (bounderFile f c.1 c.2 st.1).2 = true := by
        rw [bounderFile_snd]; exact hm
      simp [boundsStep, hsnd, hm]
    · have hmf : hasMatch f st.1 = false := by simpa using hm
      have hsnd : (bounderFile f c.1 c.2 st.1).2 = false := by
        rw [bounderFile_snd]; exact hmf
      simp [boundsStep, hsnd, hmf]

/-- With no matching item the fold leaves the file untouched (nothing is ever
written back). -/
theorem foldl_boundsStep_nowrite (f : String) (caps : List (String × String)) :
    ∀ st : List Item × Bool, hasMatch f st.1 = false →
      (caps.foldl (boundsStep f) st).1 = st.1 := by
  induction caps with
  | nil => intro st _; rfl
  | cons c rest ih =>
    intro st h
    have hsnd : (bounderFile f c.1 c.2 st.1).2 = false := by
      rw [bounderFile_snd]; exact h
    rw [List.foldl_cons]
    have hstep : boundsStep f st c = (st.1, st.2) := by
      simp [boundsStep, hsnd]
    rw [hstep]
    exact ih (st.1, st.2) h

/-- A fold of folds over the pieces equals one fold over the flattened list. -/
theorem foldl_nested_flat {α β γ : Type} (g : α → List β) (f : γ → β → γ) :
    ∀ (l : List α) (st : γ),
      l.foldl (fun st x => (g x).foldl f st) st = (l.flatMap g).foldl f st := by
  intro l
  induction l with
  | nil => intro st; rfl
  | cons a t ih =>
    intro st
    rw [List.flatMap_cons, List.foldl_append, List.foldl_cons, ih]

/-- `repair_bounds_help` equals the fold over the flattened capture list. -/
theorem repair_bounds_help_eq_flat (capturesOf : String → List (String × String))
    (records : List (Except String RustcError)) (stderr fnName : String)
    (file : List Item) :
    repair_bounds_help capturesOf records stderr fnName file =
      (records.flatMap fun it => capturesOf (renderedOf stderr it)).foldl
        (boundsStep fnName) (file, false) :=
  foldl_nested_flat _ _ records (file, false)

/-! ## Claim theorems: lifetime bound inserter -/

/-- C5: if the diagnostic stream yields a capture proposing the bound a: b for
function fnName, then after `repair_bounds_help` every function-like item
named fnName carries the where-clause predicate a: b; the helped/written flag
is true exactly when an insertion occurred (a matching item exists — with no
match nothing is written and the file is unchanged); and running the pass
again with the same diagnostics succeeds, every matching item still carrying
the predicate. -/
theorem C5_bound_inserter_inserts_everywhere
    (capturesOf : String → List (String × String))
    (records : List (Except String RustcError)) (stderr fnName a b : String)
    (file : List Item)
    (hab : (a, b) ∈ records.flatMap fun it => capturesOf (renderedOf stderr it)) :
    (∀ it ∈ (repair_bounds_help capturesOf records stderr fnName file).1,
        itemPredOK fnName a b it = true) ∧
    ((repair_bounds_help capturesOf records stderr fnName file).2 =
        hasMatch fnName file) ∧
    (hasMatch fnName file = false →
        (repair_bounds_help capturesOf records stderr fnName file).1 = file) ∧
    (∀ it ∈ (repair_bounds_help capturesOf records stderr fnName
        (repair_bounds_help capturesOf records stderr fnName file).1).1,
        itemPredOK fnName a b it = true) := by
  rw [repair_bounds_help_eq_flat]
  set caps := records.flatMap fun it => capturesOf (renderedOf stderr it) with hcaps
  refine ⟨foldl_boundsStep_establishes fnName a b caps hab (file, false), ?_, ?_, ?_⟩
  · rw [foldl_boundsStep_helped]
    have hne : caps ≠ [] := List.ne_nil_of_mem hab
    have hie : caps.isEmpty = false := by
      simpa [List.isEmpty_iff] using hne
    simp [hie]
  · intro h
    exact foldl_boundsStep_nowrite fnName caps (file, false) h
  · rw [repair_bounds_help_eq_flat, ← hcaps]
    exact foldl_boundsStep_establishes fnName a b caps hab _

/-- Witness for C5 at a concrete input: one failed record whose raw text yields
the capture (a, b), one free function named f. -/
theorem C5_bound_inserter_inserts_everywhere_witness :
    (repair_bounds_help (fun _ => [("a", "b")]) [Except.error "x"] "s" "f"
        [Item.fn "f" ⟨⟨[], none⟩, [], none⟩]).2 =
      hasMatch "f" [Item.fn "f" ⟨⟨[], none⟩, [], none⟩] :=
  (C5_bound_inserter_inserts_everywhere (fun _ => [("a", "b")])
    [Except.error "x"] "s" "f" "a" "b" [Item.fn "f" ⟨⟨[], none⟩, [], none⟩]
    (by decide)).2.1

/-! ## Claim theorems: diagnostic deserialization failure -/

/-- C8 counterexample: the project-level path does not degrade a record that
fails to deserialize to the raw text — it skips it.  With a record stream
consisting of one undeserializable record and a process_errors accepting the
raw text, the code reports no help while the behaviour the claim describes
(degrade to raw rendered text, hand to the patch logic) reports help. -/
theorem C8_project_no_degrade_counterexample :
    iterationHelp (fun m => m.rendered == "boom") "s" [Except.error "bad"] = false ∧
    iterationHelpSpecDegraded (fun m => m.rendered == "boom") "s" "boom"
      [Except.error "bad"] = true := by
  constructor
  · rfl
  · decide

/-- C8 (amended): in the file-level paths (suggestion patcher and bound
inserter) a record that fails to deserialize is degraded to treating the
entire raw stderr as the rendered message — replacing it by a successfully
parsed record whose rendered text is the raw stderr changes nothing — while
the project-level path skips such a record entirely; no path aborts (all three
functions are total and return a value on such streams). -/
theorem C8_deserialization_failure_never_aborts
    (capturesOfH : String → List HelpCapture)
    (capturesOfB : String → List (String × String))
    (pre post : List (Except String RustcError)) (e stderr fnName : String)
    (spans : List RustcSpan) (lines : List String) (file : List Item)
    (ppe : RustcError → Bool) (src : String)
    (cpre cpost : List (Except String CargoError)) (e2 : String) :
    repair_standard_help capturesOfH (pre ++ [Except.error e] ++ post) stderr
        lines =
      repair_standard_help capturesOfH (pre ++ [Except.ok ⟨stderr, spans⟩] ++ post)
        stderr lines ∧
    repair_bounds_help capturesOfB (pre ++ [Except.error e] ++ post) stderr fnName
        file =
      repair_bounds_help capturesOfB (pre ++ [Except.ok ⟨stderr, spans⟩] ++ post)
        stderr fnName file ∧
    iterationHelp ppe src (cpre ++ [Except.error e2] ++ cpost) =
      iterationHelp ppe src (cpre ++ cpost) := by
  refine ⟨?_, ?_, ?_⟩
  · simp [repair_standard_help, List.foldl_append, renderedOf]
  · simp [repair_bounds_help, List.foldl_append, renderedOf]
  · simp [iterationHelp, List.any_append, recordHelps]

/-! ## Claim theorems: elision engine flags and counterexamples -/

/-- C1 (code bug): on the receiver-free function f with one lifetime
parameter a and inputs Foo<a>, Foo<a>, the returned annotations_left is true
(the parameter survives the filter) and the renumbering step does encounter a
lifetime as a generic argument (the ghost flag of the model is true), yet the
returned has_struct_lt is false: the source reads each ChangeLtHelperElider's
has_struct_lt (lines 524-526, 561-563, 575-577) before running the visit,
while the field still holds its initial false, so the flag can never be set,
contradicting the specified flag semantics. -/
theorem C1_has_struct_lt_never_set :
    (elide_lifetimes_annotations
        [Item.fn "f" ⟨⟨[.lifetimeParam "a"], none⟩,
          [.typed (.path "Foo" ["a"]), .typed (.path "Foo" ["a"])], none⟩]
        "f").2 = ⟨true, true, false⟩ ∧
    (fn_lifetime_elider false false
        ⟨⟨[.lifetimeParam "a"], none⟩,
          [.typed (.path "Foo" ["a"]), .typed (.path "Foo" ["a"])],
          none⟩).sawGenericArgLt = true := by
  decide

/-- C9 counterexample: for fn f(x: &static u32, y: Foo<static>) the first pass
rewrites the generic argument to the underscore placeholder while keeping the
static reference (its usage count is two); the second pass then sees the
reference as single-use and not protected, strips it, and thus changes the
signature again — running the engine twice does not equal running it once. -/
theorem C9_elision_not_idempotent :
    fileLtsAll
        (elide_lifetimes_annotations
          (elide_lifetimes_annotations
            [Item.fn "f" ⟨⟨[], none⟩,
              [.typed (.ref (some "static") .unit),
               .typed (.path "Foo" ["static"])], none⟩] "f").1 "f").1 ≠
      fileLtsAll
        (elide_lifetimes_annotations
          [Item.fn "f" ⟨⟨[], none⟩,
            [.typed (.ref (some "static") .unit),
             .typed (.path "Foo" ["static"])], none⟩] "f").1 := by
  decide

/-- C2 counterexample: for fn f<a, b>(x: &a u32) where a: b, both declared
parameters satisfy the claim's survival condition (a is in a where-clause
predicate as lhs, b as bound), so under the claim both would have to remain,
yet the engine keeps exactly one parameter: b is dropped (its name never
enters the usage map) although it appears in a where-clause predicate,
refuting the claim's dropped-parameter direction. -/
theorem C2_where_bound_dropped_counterexample :
    declaredLts (fn_lifetime_elider false false
        ⟨⟨[.lifetimeParam "a", .lifetimeParam "b"], some [⟨"a", "b", []⟩]⟩,
          [.typed (.ref (some "a") .unit)], none⟩).sig = ["lt0"] ∧
    (declaredLts
        ⟨⟨[.lifetimeParam "a", .lifetimeParam "b"], some [⟨"a", "b", []⟩]⟩,
          [.typed (.ref (some "a") .unit)], none⟩).filter
      (claimKeep
        ⟨⟨[.lifetimeParam "a", .lifetimeParam "b"], some [⟨"a", "b", []⟩]⟩,
          [.typed (.ref (some "a") .unit)], none⟩) = ["a", "b"] := by
  decide

/-! ## Lemmas for the elision filter characterization -/

/-- Folding list appends from an accumulator is the accumulator followed by
the flattened pieces. -/
theorem foldl_acc_append {α β : Type} (h : α → List β) (l : List α) :
    ∀ acc : List β,
      l.foldl (fun acc x => acc ++ h x) acc = acc ++ l.flatMap h := by
  induction l with
  | nil => intro acc; simp
  | cons a t ih => intro acc; simp [ih]

/-- The input usage vector is the concatenation of the inputs' lifetimes. -/
theorem inputLts_eq_flatMap (sig : Signature) :
    inputLts sig = sig.inputs.flatMap argLts := by
  unfold inputLts
  have hstep : (fun (acc : List String) (a : FnArg) =>
      match a with
      | .receiver => acc
      | .typed t => acc ++ t.lts) = fun acc a => acc ++ argLts a := by
    funext acc a
    cases a <;> simp [argLts]
  rw [hstep, foldl_acc_append]
  simp

/-- The generic-parameter usage vector is the concatenation of the bound
lifetimes. -/
theorem genParamLts_eq_flatMap (sig : Signature) :
    genParamLts sig = sig.generics.params.flatMap gpLts := by
  unfold genParamLts
  have hstep : (fun (acc : List String) (gp : GenericParam) =>
      match gp with
      | .lifetimeParam _ => acc
      | .typeParam _ b => acc ++ b.lts) = fun acc gp => acc ++ gpLts gp := by
    funext acc gp
    cases gp <;> simp [gpLts]
  rw [hstep, foldl_acc_append]
  simp

/-- The where-clause contribution to cannot_elide as a flat map. -/
theorem whereCannot_eq (sig : Signature) :
    whereCannot sig =
      (sig.generics.whereClause.getD []).flatMap predHeadNames := by
  unfold whereCannot
  cases hw : sig.generics.whereClause with
  | none => simp
  | some preds =>
    simp only [Option.getD_some]
    have hstep : (fun (acc : List String) (wp : WherePred) =>
        acc ++ [wp.lhs, wp.bound0]) = fun acc wp => acc ++ predHeadNames wp := rfl
    rw [hstep, foldl_acc_append]
    simp

/-- The usage count decomposes over the three collection regions. -/
theorem cntOf_decompose (sig : Signature) (n : String) :
    cntOf sig n = usesAmongInputs sig n + (outputLts sig).count n +
      (genParamLts sig).count n := by
  unfold cntOf usageList usesAmongInputs
  rw [List.count_append, List.count_append]

/-- Membership in cannot_elide: in the return type or at the head of a
where-clause predicate. -/
theorem cannotElide_contains (sig : Signature) (n : String) :
    (cannotElide sig).contains n =
      (usesInReturn sig n || inWhereHead sig n) := by
  have h1 : n ∈ whereCannot sig ↔ inWhereHead sig n = true := by
    rw [whereCannot_eq, List.mem_flatMap]
    unfold inWhereHead
    rw [List.any_eq_true]
    constructor
    · rintro ⟨wp, hwp, hn⟩
      refine ⟨wp, hwp, ?_⟩
      simp only [predHeadNames, List.mem_cons, List.not_mem_nil, or_false] at hn
      rcases hn with h | h <;> simp [h]
    · rintro ⟨wp, hwp, hb⟩
      refine ⟨wp, hwp, ?_⟩
      simp only [Bool.or_eq_true, beq_iff_eq] at hb
      simp only [predHeadNames, List.mem_cons, List.not_mem_nil, or_false]
      tauto
  have h2 : n ∈ outputLts sig ↔ usesInReturn sig n = true := by
    unfold usesInReturn
    exact List.elem_iff.symm
  rw [Bool.eq_iff_iff]
  have hmem : (cannotElide sig).contains n = true ↔ n ∈ cannotElide sig :=
    List.elem_iff
  rw [hmem]
  unfold cannotElide
  rw [List.mem_append, Bool.or_eq_true, h1, h2]
  tauto

/-- The source's generic-parameter filter, expressed in the corrected spec
vocabulary. -/
theorem keepParam_eq_specKeep (sig : Signature) (n : String) :
    keepParam (cannotElide sig) (cntOf sig) (.lifetimeParam n) =
      specKeep sig n := by
  simp only [keepParam, specKeep]
  rw [← cntOf_decompose]
  by_cases h0 : cntOf sig n = 0
  · simp [h0]
  · rw [if_neg h0, cannotElide_contains]
    have h1 : decide (1 ≤ cntOf sig n) = true := by
      simp only [decide_eq_true_eq]
      omega
    rw [h1, Bool.true_and]
    have hlt : decide (1 < cntOf sig n) = decide (2 ≤ cntOf sig n) := rfl
    rw [hlt]
    cases usesInReturn sig n <;> cases inWhereHead sig n <;>
      cases decide (2 ≤ cntOf sig n) <;> rfl

/-- ChangeLt preserves the lifetime-parameter names. -/
theorem ltNames_map_changeGp (m : List (String × String))
    (ps : List GenericParam) : ltNames (ps.map (changeGp m)) = ltNames ps := by
  induction ps with
  | nil => rfl
  | cons gp rest ih => cases gp <;> simp [ltNames, changeGp, List.filterMap_cons] at ih ⊢ <;> exact ih

/-- Strip preserves the lifetime-parameter names. -/
theorem ltNames_map_stripGp (c : List String) (f : String → Nat)
    (ps : List GenericParam) : ltNames (ps.map (stripGp c f)) = ltNames ps := by
  induction ps with
  | nil => rfl
  | cons gp rest ih => cases gp <;> simp [ltNames, stripGp, List.filterMap_cons] at ih ⊢ <;> exact ih

/-- Filtering parameters and then taking lifetime names is filtering the
names. -/
theorem ltNames_filter_keep (c : List String) (f : String → Nat)
    (ps : List GenericParam) :
    ltNames (ps.filter (keepParam c f)) =
      (ltNames ps).filter fun n => keepParam c f (.lifetimeParam n) := by
  induction ps with
  | nil => rfl
  | cons gp rest ih =>
    cases gp with
    | lifetimeParam n =>
      by_cases h : keepParam c f (.lifetimeParam n) = true
      · simp [ltNames, List.filter_cons, h, List.filterMap_cons] at ih ⊢
        exact ih
      · have hf : keepParam c f (.lifetimeParam n) = false := by
          simpa using h
        simp [ltNames, List.filter_cons, hf, List.filterMap_cons] at ih ⊢
        exact ih
    | typeParam nm b =>
      have hk : keepParam c f (.typeParam nm b) = true := rfl
      simp [ltNames, List.filter_cons, hk, List.filterMap_cons] at ih ⊢
      exact ih

/-- ltNames over a cons with a lifetime parameter. -/
theorem ltNames_cons_lifetime (n : String) (rest : List GenericParam) :
    ltNames (.lifetimeParam n :: rest) = n :: ltNames rest := rfl

/-- ltNames over a cons with a type parameter. -/
theorem ltNames_cons_type (nm : String) (b : Ty) (rest : List GenericParam) :
    ltNames (.typeParam nm b :: rest) = ltNames rest := rfl

/-- The renumbering gives the canonical names in order. -/
theorem ltNames_renumber (ps : List GenericParam) :
    ∀ k, ltNames (renumber ps k).1 =
      (List.range (ltNames ps).length).map fun i => mkLt (k + i) := by
  induction ps with
  | nil => intro k; simp [renumber, ltNames]
  | cons gp rest ih =>
    intro k
    cases gp with
    | lifetimeParam n =>
      show ltNames (.lifetimeParam (mkLt k) :: (renumber rest (k + 1)).1) = _
      rw [ltNames_cons_lifetime, ih (k + 1), ltNames_cons_lifetime]
      rw [List.length_cons, List.range_succ_eq_map, List.map_cons, List.map_map]
      congr 1
      refine List.map_congr_left ?_
      intro a _
      simp only [Function.comp]
      have harith : k + 1 + a = k + (a + 1) := by omega
      rw [harith]
    | typeParam nm b =>
      show ltNames (.typeParam nm b :: (renumber rest k).1) = _
      rw [ltNames_cons_type, ih k, ltNames_cons_type]

/-- C2 (amended): for every receiver-free function, the declared lifetime
parameters surviving one Elision Engine pass are exactly (in order and
number, renamed canonically) those whose total usage across the typed inputs,
the return type and the non-lifetime generic parameters is at least one and
which are used at least twice across those regions, appear in the return
type, or appear as the left-hand side or first bound of a where-clause
lifetime predicate; every other declared parameter is dropped (in particular,
usage counting is not restricted to inputs, and a parameter whose only
occurrence is in a where-clause predicate is dropped despite the predicate). -/
theorem C2_elision_filter_characterization (sig : Signature)
    (h : hasReceiver sig = false) :
    (declaredLts sig).filter (specKeep sig) = survivors sig ∧
    declaredLts (fn_lifetime_elider false false sig).sig =
      (List.range (survivors sig).length).map mkLt := by
  constructor
  · unfold survivors
    apply List.filter_congr
    intro n _
    exact (keepParam_eq_specKeep sig n).symm
  · simp only [fn_lifetime_elider, h, Bool.false_eq_true, if_false]
    unfold declaredLts
    rw [ltNames_map_changeGp, ltNames_renumber, ltNames_filter_keep,
      ltNames_map_stripGp]
    unfold survivors declaredLts
    refine List.map_congr_left ?_
    intro a _
    simp

/-- Witness for C2 at a concrete input: fn f<a>(x: &a u32, y: &a u32). -/
theorem C2_elision_filter_characterization_witness :
    ((declaredLts ⟨⟨[.lifetimeParam "a"], none⟩,
        [.typed (.ref (some "a") .unit), .typed (.ref (some "a") .unit)],
        none⟩).filter
      (specKeep ⟨⟨[.lifetimeParam "a"], none⟩,
        [.typed (.ref (some "a") .unit), .typed (.ref (some "a") .unit)],
        none⟩) =
      survivors ⟨⟨[.lifetimeParam "a"], none⟩,
        [.typed (.ref (some "a") .unit), .typed (.ref (some "a") .unit)],
        none⟩) ∧
    declaredLts (fn_lifetime_elider false false
        ⟨⟨[.lifetimeParam "a"], none⟩,
          [.typed (.ref (some "a") .unit), .typed (.ref (some "a") .unit)],
          none⟩).sig =
      (List.range (survivors ⟨⟨[.lifetimeParam "a"], none⟩,
        [.typed (.ref (some "a") .unit), .typed (.ref (some "a") .unit)],
        none⟩).length).map mkLt :=
  C2_elision_filter_characterization _ rfl

/-! ## Lemmas about the callee renamer -/

mutual

theorem renameExpr_noSuffix (name suf : String) :
    ∀ e : Expr,
      (∀ id ∈ exprIdents e, strContains id suf = true →
        strContains id name = true) →
      (∀ id ∈ exprIdents e, strContains (strReplace id suf "") suf = false) →
      (∀ id ∈ exprPruned name e, strContains id suf = false) →
      ∀ id ∈ exprIdents (renameExpr name suf e), strContains id suf = false
  | .lit, _, _, _ => by
    intro id hid
    simp [renameExpr, exprIdents] at hid
  | .call f args, h1, h2, h4 => by
    intro id hid
    simp only [renameExpr, exprIdents, List.mem_cons] at hid
    rcases hid with rfl | hid
    · by_cases hc : strContains f name = true
      · rw [if_pos hc]
        exact h2 f (by simp [exprIdents])
      · rw [if_neg hc]
        by_cases hs : strContains f suf = true
        · exact absurd (h1 f (by simp [exprIdents]) hs) hc
        · simpa using hs
    · exact renameExprList_noSuffix name suf args
        (fun i hi => h1 i (by simp [exprIdents, hi]))
        (fun i hi => h2 i (by simp [exprIdents, hi]))
        (fun i hi => h4 i (by simp [exprPruned, hi]))
        id hid
  | .methodCall recv m args, h1, h2, h4 => by
    intro id hid
    by_cases hc : strContains m name = true
    · rw [show renameExpr name suf (.methodCall recv m args) =
          .methodCall recv (strReplace m suf "") args by
            simp only [renameExpr]; rw [if_pos hc]] at hid
      simp only [exprIdents, List.mem_cons, List.mem_append] at hid
      rcases hid with rfl | hid | hid
      · exact h2 m (by simp [exprIdents])
      · refine h4 id ?_
        simp only [exprPruned]
        rw [if_pos hc]
        simp [hid]
      · refine h4 id ?_
        simp only [exprPruned]
        rw [if_pos hc]
        simp [hid]
    · rw [show renameExpr name suf (.methodCall recv m args) =
          .methodCall (renameExpr name suf recv) m
            (renameExprList name suf args) by
            simp only [renameExpr]; rw [if_neg hc]] at hid
      simp only [exprIdents, List.mem_cons, List.mem_append] at hid
      rcases hid with rfl | hid | hid
      · by_cases hs : strContains id suf = true
        · exact absurd (h1 id (by simp [exprIdents]) hs) hc
        · simpa using hs
      · exact renameExpr_noSuffix name suf recv
          (fun i hi => h1 i (by simp [exprIdents, hi]))
          (fun i hi => h2 i (by simp [exprIdents, hi]))
          (fun i hi => h4 i (by
            simp only [exprPruned]
            rw [if_neg hc]
            simp [hi]))
          id hid
      · exact renameExprList_noSuffix name suf args
          (fun i hi => h1 i (by simp [exprIdents, hi]))
          (fun i hi => h2 i (by simp [exprIdents, hi]))
          (fun i hi => h4 i (by
            simp only [exprPruned]
            rw [if_neg hc]
            simp [hi]))
          id hid

theorem renameExprList_noSuffix (name suf : String) :
    ∀ l : ExprList,
      (∀ id ∈ exprListIdents l, strContains id suf = true →
        strContains id name = true) →
      (∀ id ∈ exprListIdents l, strContains (strReplace id suf "") suf = false) →
      (∀ id ∈ exprListPruned name l, strContains id suf = false) →
      ∀ id ∈ exprListIdents (renameExprList name suf l),
        strContains id suf = false
  | .nil, _, _, _ => by
    intro id hid
    simp [renameExprList, exprListIdents] at hid
  | .cons e rest, h1, h2, h4 => by
    intro id hid
    simp only [renameExprList, exprListIdents, List.mem_append] at hid
    rcases hid with hid | hid
    · exact renameExpr_noSuffix name suf e
        (fun i hi => h1 i (by simp [exprListIdents, hi]))
        (fun i hi => h2 i (by simp [exprListIdents, hi]))
        (fun i hi => h4 i (by simp [exprListPruned, hi]))
        id hid
    · exact renameExprList_noSuffix name suf rest
        (fun i hi => h1 i (by simp [exprListIdents, hi]))
        (fun i hi => h2 i (by simp [exprListIdents, hi]))
        (fun i hi => h4 i (by simp [exprListPruned, hi]))
        id hid

end

mutual

theorem renameExpr_idem (name suf : String) :
    ∀ e : Expr,
      (∀ id ∈ exprIdents e, strContains id name = true →
        strContains (strReplace id suf "") name = true) →
      (∀ id ∈ exprIdents e,
        strReplace (strReplace id suf "") suf "" = strReplace id suf "") →
      renameExpr name suf (renameExpr name suf e) = renameExpr name suf e
  | .lit, _, _ => rfl
  | .call f args, h3, h2b => by
    have hargs : renameExprList name suf (renameExprList name suf args) =
        renameExprList name suf args :=
      renameExprList_idem name suf args
        (fun i hi => h3 i (by simp [exprIdents, hi]))
        (fun i hi => h2b i (by simp [exprIdents, hi]))
    simp only [renameExpr]
    rw [hargs]
    by_cases hc : strContains f name = true
    · rw [if_pos hc]
      have hmem : f ∈ exprIdents (.call f args) := by simp [exprIdents]
      rw [if_pos (h3 f hmem hc), h2b f hmem]
    · rw [if_neg hc, if_neg hc]
  | .methodCall recv m args, h3, h2b => by
    by_cases hc : strContains m name = true
    · rw [show renameExpr name suf (.methodCall recv m args) =
          .methodCall recv (strReplace m suf "") args by
            simp only [renameExpr]; rw [if_pos hc]]
      have hmem : m ∈ exprIdents (.methodCall recv m args) := by
        simp [exprIdents]
      simp only [renameExpr]
      rw [if_pos (h3 m hmem hc), h2b m hmem]
    · rw [show renameExpr name suf (.methodCall recv m args) =
          .methodCall (renameExpr name suf recv) m
            (renameExprList name suf args) by
            simp only [renameExpr]; rw [if_neg hc]]
      have hrecv : renameExpr name suf (renameExpr name suf recv) =
          renameExpr name suf recv :=
        renameExpr_idem name suf recv
          (fun i hi => h3 i (by simp [exprIdents, hi]))
          (fun i hi => h2b i (by simp [exprIdents, hi]))
      have hargs : renameExprList name suf (renameExprList name suf args) =
          renameExprList name suf args :=
        renameExprList_idem name suf args
          (fun i hi => h3 i (by simp [exprIdents, hi]))
          (fun i hi => h2b i (by simp [exprIdents, hi]))
      simp only [renameExpr]
      rw [if_neg hc, hrecv, hargs]

theorem renameExprList_idem (name suf : String) :
    ∀ l : ExprList,
      (∀ id ∈ exprListIdents l, strContains id name = true →
        strContains (strReplace id suf "") name = true) →
      (∀ id ∈ exprListIdents l,
        strReplace (strReplace id suf "") suf "" = strReplace id suf "") →
      renameExprList name suf (renameExprList name suf l) =
        renameExprList name suf l
  | .nil, _, _ => rfl
  | .cons e rest, h3, h2b => by
    simp only [renameExprList]
    rw [renameExpr_idem name suf e
        (fun i hi => h3 i (by simp [exprListIdents, hi]))
        (fun i hi => h2b i (by simp [exprListIdents, hi])),
      renameExprList_idem name suf rest
        (fun i hi => h3 i (by simp [exprListIdents, hi]))
        (fun i hi => h2b i (by simp [exprListIdents, hi]))]

end

/-- The renamer leaves no marker in a visited item when every suffixed
identifier carries the target name, removal does not recreate the marker, and
no unvisited (pruned) identifier carries it. -/
theorem ritem_noSuffix (name suf : String) (it : RItem)
    (h1 : ∀ id ∈ ritemIdents it, strContains id suf = true →
      strContains id name = true)
    (h2 : ∀ id ∈ ritemIdents it, strContains (strReplace id suf "") suf = false)
    (h4 : ∀ id ∈ ritemPruned name it, strContains id suf = false) :
    ∀ id ∈ ritemIdents (renameRItem name suf it),
      strContains id suf = false := by
  cases it with
  | fnDef n body =>
    intro id hid
    simp only [renameRItem, ritemIdents, List.mem_cons] at hid
    rcases hid with rfl | hid
    · by_cases hc : strContains n name = true
      · rw [if_pos hc]
        exact h2 n (by simp [ritemIdents])
      · rw [if_neg hc]
        by_cases hs : strContains n suf = true
        · exact absurd (h1 n (by simp [ritemIdents]) hs) hc
        · simpa using hs
    · exact renameExprList_noSuffix name suf body
        (fun i hi => h1 i (by simp [ritemIdents, hi]))
        (fun i hi => h2 i (by simp [ritemIdents, hi]))
        (fun i hi => h4 i (by simpa [ritemPruned] using hi))
        id hid
  | rimplBlock ms =>
    intro id hid
    simp only [renameRItem, ritemIdents, List.mem_flatMap, List.mem_map] at hid
    obtain ⟨p, ⟨m, hm, rfl⟩, hidp⟩ := hid
    have hsub : ∀ i, i ∈ m.1 :: exprListIdents m.2 →
        i ∈ ritemIdents (RItem.rimplBlock ms) := by
      intro i hi
      simp only [ritemIdents, List.mem_flatMap]
      exact ⟨m, hm, hi⟩
    have hsubp : ∀ i, i ∈ exprListPruned name m.2 →
        i ∈ ritemPruned name (RItem.rimplBlock ms) := by
      intro i hi
      simp only [ritemPruned, List.mem_flatMap]
      exact ⟨m, hm, hi⟩
    simp only [renameMethod, List.mem_cons] at hidp
    rcases hidp with rfl | hid2
    · by_cases hc : strContains m.1 name = true
      · rw [if_pos hc]
        exact h2 m.1 (hsub m.1 (by simp))
      · rw [if_neg hc]
        by_cases hs : strContains m.1 suf = true
        · exact absurd (h1 m.1 (hsub m.1 (by simp)) hs) hc
        · simpa using hs
    · exact renameExprList_noSuffix name suf m.2
        (fun i hi => h1 i (hsub i (by simp [hi])))
        (fun i hi => h2 i (hsub i (by simp [hi])))
        (fun i hi => h4 i (hsubp i hi))
        id hid2
  | rtraitBlock ms =>
    intro id hid
    simp only [renameRItem, ritemIdents, List.mem_flatMap, List.mem_map] at hid
    obtain ⟨p, ⟨m, hm, rfl⟩, hidp⟩ := hid
    have hsub : ∀ i, i ∈ m.1 :: exprListIdents m.2 →
        i ∈ ritemIdents (RItem.rtraitBlock ms) := by
      intro i hi
      simp only [ritemIdents, List.mem_flatMap]
      exact ⟨m, hm, hi⟩
    have hsubp : ∀ i, i ∈ exprListPruned name m.2 →
        i ∈ ritemPruned name (RItem.rtraitBlock ms) := by
      intro i hi
      simp only [ritemPruned, List.mem_flatMap]
      exact ⟨m, hm, hi⟩
    simp only [renameMethod, List.mem_cons] at hidp
    rcases hidp with rfl | hid2
    · by_cases hc : strContains m.1 name = true
      · rw [if_pos hc]
        exact h2 m.1 (hsub m.1 (by simp))
      · rw [if_neg hc]
        by_cases hs : strContains m.1 suf = true
        · exact absurd (h1 m.1 (hsub m.1 (by simp)) hs) hc
        · simpa using hs
    · exact renameExprList_noSuffix name suf m.2
        (fun i hi => h1 i (hsub i (by simp [hi])))
        (fun i hi => h2 i (hsub i (by simp [hi])))
        (fun i hi => h4 i (hsubp i hi))
        id hid2

/-- Idempotence of one method rename. -/
theorem renameMethod_idem (name suf : String) (m : String × ExprList)
    (h3 : ∀ id ∈ m.1 :: exprListIdents m.2, strContains id name = true →
      strContains (strReplace id suf "") name = true)
    (h2b : ∀ id ∈ m.1 :: exprListIdents m.2,
      strReplace (strReplace id suf "") suf "" = strReplace id suf "") :
    renameMethod name suf (renameMethod name suf m) =
      renameMethod name suf m := by
  have hbody : renameExprList name suf (renameExprList name suf m.2) =
      renameExprList name suf m.2 :=
    renameExprList_idem name suf m.2
      (fun i hi => h3 i (by simp [hi]))
      (fun i hi => h2b i (by simp [hi]))
  simp only [renameMethod]
  rw [hbody]
  by_cases hc : strContains m.1 name = true
  · rw [if_pos hc]
    rw [if_pos (h3 m.1 (by simp) hc), h2b m.1 (by simp)]
  · rw [if_neg hc, if_neg hc]

/-- Idempotence of one item rename. -/
theorem ritem_idem (name suf : String) (it : RItem)
    (h3 : ∀ id ∈ ritemIdents it, strContains id name = true →
      strContains (strReplace id suf "") name = true)
    (h2b : ∀ id ∈ ritemIdents it,
      strReplace (strReplace id suf "") suf "" = strReplace id suf "") :
    renameRItem name suf (renameRItem name suf it) = renameRItem name suf it := by
  cases it with
  | fnDef n body =>
    have hbody : renameExprList name suf (renameExprList name suf body) =
        renameExprList name suf body :=
      renameExprList_idem name suf body
        (fun i hi => h3 i (by simp [ritemIdents, hi]))
        (fun i hi => h2b i (by simp [ritemIdents, hi]))
    simp only [renameRItem]
    rw [hbody]
    by_cases hc : strContains n name = true
    · rw [if_pos hc]
      rw [if_pos (h3 n (by simp [ritemIdents]) hc), h2b n (by simp [ritemIdents])]
    · rw [if_neg hc, if_neg hc]
  | rimplBlock ms =>
    simp only [renameRItem, List.map_map]
    congr 1
    apply List.map_congr_left
    intro m hm
    simp only [Function.comp]
    refine renameMethod_idem name suf m ?_ ?_
    · intro i hi
      exact h3 i (by
        simp only [ritemIdents, List.mem_flatMap]
        exact ⟨m, hm, hi⟩)
    · intro i hi
      exact h2b i (by
        simp only [ritemIdents, List.mem_flatMap]
        exact ⟨m, hm, hi⟩)
  | rtraitBlock ms =>
    simp only [renameRItem, List.map_map]
    congr 1
    apply List.map_congr_left
    intro m hm
    simp only [Function.comp]
    refine renameMethod_idem name suf m ?_ ?_
    · intro i hi
      exact h3 i (by
        simp only [ritemIdents, List.mem_flatMap]
        exact ⟨m, hm, hi⟩)
    · intro i hi
      exact h2b i (by
        simp only [ritemIdents, List.mem_flatMap]
        exact ⟨m, hm, hi⟩)

/-! ## Claim theorems: callee renamer -/

/-- C6 counterexample: the renamer only touches identifiers that contain the
target name, so with target foo the definition bar____EXTRACT_THIS keeps the
marker suffix after one pass — it is not the case that no identifier anywhere
in the file still contains the marker. -/
theorem C6_suffix_survives_counterexample :
    ¬ (∀ id ∈ fileIdents (callee_renamer
        [RItem.fnDef "bar____EXTRACT_THIS" .nil] "foo"),
        strContains id markerSuffix = false) := by
  decide

/-- C6 (amended): after one Callee Renamer pass, no identifier still contains
the marker suffix, and a second pass is a no-op, provided every identifier in
the file that contains the marker also contains the logical name, no
identifier inside the receiver or arguments of a method call whose name
contains the logical name (subtrees the visitor skips) contains the marker,
and removing the marker from any identifier neither recreates the marker nor
destroys the logical name. -/
theorem C6_renamer_cleans_and_is_idempotent (file : List RItem) (fnName : String)
    (h1 : ∀ id ∈ fileIdents file, strContains id markerSuffix = true →
      strContains id fnName = true)
    (h2 : ∀ id ∈ fileIdents file,
      strContains (strReplace id markerSuffix "") markerSuffix = false)
    (h3 : ∀ id ∈ fileIdents file, strContains id fnName = true →
      strContains (strReplace id markerSuffix "") fnName = true)
    (h2b : ∀ id ∈ fileIdents file,
      strReplace (strReplace id markerSuffix "") markerSuffix "" =
        strReplace id markerSuffix "")
    (h4 : ∀ id ∈ filePruned fnName file, strContains id markerSuffix = false) :
    (∀ id ∈ fileIdents (callee_renamer file fnName),
      strContains id markerSuffix = false) ∧
    callee_renamer (callee_renamer file fnName) fnName =
      callee_renamer file fnName := by
  constructor
  · intro id hid
    unfold callee_renamer fileIdents at hid
    simp only [List.mem_flatMap, List.mem_map] at hid
    obtain ⟨p, ⟨it, hit, rfl⟩, hidp⟩ := hid
    refine ritem_noSuffix fnName markerSuffix it ?_ ?_ ?_ id hidp
    · intro i hi
      refine h1 i ?_
      unfold fileIdents
      simp only [List.mem_flatMap]
      exact ⟨it, hit, hi⟩
    · intro i hi
      refine h2 i ?_
      unfold fileIdents
      simp only [List.mem_flatMap]
      exact ⟨it, hit, hi⟩
    · intro i hi
      refine h4 i ?_
      unfold filePruned
      simp only [List.mem_flatMap]
      exact ⟨it, hit, hi⟩
  · unfold callee_renamer
    rw [List.map_map]
    apply List.map_congr_left
    intro it hit
    simp only [Function.comp]
    refine ritem_idem fnName markerSuffix it ?_ ?_
    · intro i hi
      refine h3 i ?_
      unfold fileIdents
      simp only [List.mem_flatMap]
      exact ⟨it, hit, hi⟩
    · intro i hi
      refine h2b i ?_
      unfold fileIdents
      simp only [List.mem_flatMap]
      exact ⟨it, hit, hi⟩

/-- Witness for C6 at a concrete input: a mangled definition and a mangled
call, target name foo. -/
theorem C6_renamer_cleans_and_is_idempotent_witness :
    (∀ id ∈ fileIdents (callee_renamer
        [RItem.fnDef "foo____EXTRACT_THIS"
          (.cons (.call "foo____EXTRACT_THIS" .nil) .nil)] "foo"),
      strContains id markerSuffix = false) ∧
    callee_renamer (callee_renamer
        [RItem.fnDef "foo____EXTRACT_THIS"
          (.cons (.call "foo____EXTRACT_THIS" .nil) .nil)] "foo") "foo" =
      callee_renamer
        [RItem.fnDef "foo____EXTRACT_THIS"
          (.cons (.call "foo____EXTRACT_THIS" .nil) .nil)] "foo" :=
  C6_renamer_cleans_and_is_idempotent
    [RItem.fnDef "foo____EXTRACT_THIS"
      (.cons (.call "foo____EXTRACT_THIS" .nil) .nil)] "foo"
    (by decide) (by decide) (by decide) (by decide) (by decide)

/-! ## Type-level lemmas for elision idempotence -/

/-- ChangeLt on a type without generic-argument lifetimes is a pure rename and
reports no struct lifetime. -/
theorem changeLt_of_noArgLt (m : List (String × String)) :
    ∀ t : Ty, t.noArgLt = true →
      Ty.changeLt m t =
        (Ty.renameLts (fun n => (lookupLast n m).getD n) t, false)
  | .unit, _ => rfl
  | .ref lt inner, h => by
    have hi : inner.noArgLt = true := h
    simp only [Ty.changeLt, Ty.renameLts]
    rw [changeLt_of_noArgLt m inner hi]
  | .path n args, h => by
    have hargs : args = [] := by
      cases args with
      | nil => rfl
      | cons x xs => exact absurd h (by simp [Ty.noArgLt])
    subst hargs
    rfl

/-- Renaming maps the collected lifetimes. -/
theorem lts_renameLts (ren : String → String) :
    ∀ t : Ty, (Ty.renameLts ren t).lts = t.lts.map ren
  | .unit => rfl
  | .ref none inner => by
    simp only [Ty.renameLts, Option.map_none]
    exact lts_renameLts ren inner
  | .ref (some l) inner => by
    simp only [Ty.renameLts, Option.map_some]
    show ren l :: (Ty.renameLts ren inner).lts = (l :: inner.lts).map ren
    rw [List.map_cons, lts_renameLts ren inner]
  | .path n args => rfl

/-- Strip preserves the absence of generic-argument lifetimes. -/
theorem noArgLt_strip (c : List String) (f : String → Nat) :
    ∀ t : Ty, (Ty.strip c f t).noArgLt = t.noArgLt
  | .unit => rfl
  | .ref lt inner => noArgLt_strip c f inner
  | .path n args => rfl

/-- Renaming preserves the absence of generic-argument lifetimes. -/
theorem noArgLt_renameLts (ren : String → String) :
    ∀ t : Ty, (Ty.renameLts ren t).noArgLt = t.noArgLt
  | .unit => rfl
  | .ref lt inner => noArgLt_renameLts ren inner
  | .path n args => by
    show (args.map ren).isEmpty = args.isEmpty
    cases args <;> rfl

/-- Strip is the identity when every collected lifetime is protected. -/
theorem strip_eq_self (c : List String) (f : String → Nat) :
    ∀ t : Ty, (∀ id ∈ t.lts, c.contains id = true ∨ 2 ≤ f id) →
      Ty.strip c f t = t
  | .unit, _ => rfl
  | .ref none inner, h => by
    simp only [Ty.strip]
    rw [strip_eq_self c f inner (fun id hid => h id hid)]
  | .ref (some id0) inner, h => by
    have hid0 := h id0 (by
      show id0 ∈ id0 :: inner.lts
      exact List.mem_cons_self id0 inner.lts)
    simp only [Ty.strip]
    rw [strip_eq_self c f inner (fun id hid => h id (by
      show id ∈ id0 :: inner.lts
      exact List.mem_cons_of_mem id0 hid))]
    have hng : ¬(c.contains id0 = false ∧ f id0 ≤ 1) := by
      rintro ⟨ha, hb⟩
      rcases hid0 with h1 | h1
      · rw [h1] at ha; cases ha
      · omega
    rw [if_neg hng]
  | .path n args, _ => rfl

/-- Under noArgLt every surviving collected lifetime was protected and occurs
in the original type. -/
theorem lts_strip_protected (c : List String) (f : String → Nat) :
    ∀ t : Ty, t.noArgLt = true →
      ∀ id ∈ (Ty.strip c f t).lts,
        (c.contains id = true ∨ 2 ≤ f id) ∧ id ∈ t.lts
  | .unit, _, id, hid => by simp [Ty.strip, Ty.lts] at hid
  | .ref none inner, h, id, hid =>
    lts_strip_protected c f inner h id hid
  | .ref (some id0) inner, h, id, hid => by
    by_cases hguard : c.contains id0 = false ∧ f id0 ≤ 1
    · rw [show Ty.strip c f (.ref (some id0) inner) =
          .ref none (Ty.strip c f inner) by
            simp only [Ty.strip]; rw [if_pos hguard]] at hid
      obtain ⟨hc, hm⟩ := lts_strip_protected c f inner h id hid
      exact ⟨hc, by
        show id ∈ id0 :: inner.lts
        exact List.mem_cons_of_mem id0 hm⟩
    · rw [show Ty.strip c f (.ref (some id0) inner) =
          .ref (some id0) (Ty.strip c f inner) by
            simp only [Ty.strip]; rw [if_neg hguard]] at hid
      rcases List.mem_cons.mp hid with rfl | hid2
      · refine ⟨?_, by
          show id ∈ id :: inner.lts
          exact List.mem_cons_self id inner.lts⟩
        by_cases hcc : c.contains id = true
        · exact Or.inl hcc
        · right
          have hle : ¬ f id ≤ 1 := fun hle => hguard ⟨by simpa using hcc, hle⟩
          omega
      · obtain ⟨hc, hm⟩ := lts_strip_protected c f inner h id hid2
        exact ⟨hc, by
          show id ∈ id0 :: inner.lts
          exact List.mem_cons_of_mem id0 hm⟩
  | .path n args, h, id, hid => by
    have hargs : args = [] := by
      cases args with
      | nil => rfl
      | cons x xs => exact absurd h (by simp [Ty.noArgLt])
    subst hargs
    simp [Ty.strip, Ty.lts] at hid

/-- The count of a protected name is unchanged by strip. -/
theorem count_lts_strip (c : List String) (f : String → Nat) (id : String)
    (hid : c.contains id = true ∨ 2 ≤ f id) :
    ∀ t : Ty, ((Ty.strip c f t).lts).count id = (t.lts).count id
  | .unit => rfl
  | .ref none inner => count_lts_strip c f id hid inner
  | .ref (some id0) inner => by
    by_cases hguard : c.contains id0 = false ∧ f id0 ≤ 1
    · rw [show Ty.strip c f (.ref (some id0) inner) =
          .ref none (Ty.strip c f inner) by
            simp only [Ty.strip]; rw [if_pos hguard]]
      have hne : (id0 == id) = false := by
        apply beq_false_of_ne
        rintro rfl
        rcases hid with h1 | h1
        · rw [h1] at hguard; exact absurd hguard.1 (by simp)
        · omega
      show ((Ty.strip c f inner).lts).count id = (id0 :: inner.lts).count id
      rw [List.count_cons, count_lts_strip c f id hid inner, hne]
      simp
    · rw [show Ty.strip c f (.ref (some id0) inner) =
          .ref (some id0) (Ty.strip c f inner) by
            simp only [Ty.strip]; rw [if_neg hguard]]
      show (id0 :: (Ty.strip c f inner).lts).count id =
        (id0 :: inner.lts).count id
      rw [List.count_cons, List.count_cons, count_lts_strip c f id hid inner]
  | .path n args => rfl

/-- Renaming with a pointwise-identity function is the identity. -/
theorem renameLts_id (ren : String → String) (h : ∀ n, ren n = n) :
    ∀ t : Ty, Ty.renameLts ren t = t
  | .unit => rfl
  | .ref lt inner => by
    simp only [Ty.renameLts]
    rw [renameLts_id ren h inner]
    cases lt with
    | none => rfl
    | some l => simp [h l]
  | .path n args => by
    simp only [Ty.renameLts]
    congr 1
    rw [show ren = id from funext h, List.map_id]

/-- Mapping can only raise the count of an image. -/
theorem count_le_count_map (ren : String → String) (n : String) :
    ∀ l : List String, l.count n ≤ (l.map ren).count (ren n) := by
  intro l
  induction l with
  | nil => simp
  | cons a t ih =>
    rw [List.map_cons, List.count_cons, List.count_cons]
    by_cases h : (a == n) = true
    · have ha : a = n := beq_iff_eq.mp h
      subst ha
      rw [h]
      have hr : (ren a == ren a) = true := by simp
      rw [hr]
      omega
    · have hb : (a == n) = false := by simpa using h
      rw [hb]
      have hsplit : (if (ren a == ren n) = true then 1 else 0) = 0 ∨
          (if (ren a == ren n) = true then 1 else 0) = 1 := by
        by_cases h2 : (ren a == ren n) = true <;> simp [h2]
      rcases hsplit with h2 | h2 <;> rw [h2] <;> simp <;> omega

/-- A diagonal association list looks up to the identity. -/
theorem lookupLast_diag (n : String) :
    ∀ m : List (String × String), (∀ p ∈ m, p.1 = p.2) →
      (lookupLast n m).getD n = n := by
  intro m
  induction m with
  | nil => intro _; rfl
  | cons p rest ih =>
    intro h
    obtain ⟨k, v⟩ := p
    have hkv : k = v := h (k, v) (List.mem_cons_self _ _)
    simp only [lookupLast]
    cases hl : lookupLast n rest with
    | some r =>
      have := ih (fun q hq => h q (List.mem_cons_of_mem _ hq))
      rw [hl] at this
      simpa using this
    | none =>
      by_cases hk : (k == n) = true
      · have : k = n := beq_iff_eq.mp hk
        subst this
        simp [hk, hkv.symm]
      · have hkf : (k == n) = false := by simpa using hk
        simp [hkf]

/-! ## Association-list and renumbering lemmas -/

/-- Mapping a transformation whose piece-images are renamed pieces renames the
flattened list. -/
theorem flatMap_map_rename {α β : Type} (l : List α) (g : α → α)
    (h : α → List β) (r : β → β)
    (hp : ∀ a ∈ l, h (g a) = (h a).map r) :
    (l.map g).flatMap h = (l.flatMap h).map r := by
  induction l with
  | nil => rfl
  | cons a t ih =>
    simp only [List.map_cons, List.flatMap_cons, List.map_append]
    rw [hp a (List.mem_cons_self _ _),
      ih fun x hx => hp x (List.mem_cons_of_mem _ hx)]

/-- Pointwise count preservation lifts to the flattened list. -/
theorem flatMap_map_count {α : Type} (l : List α) (g : α → α)
    (h : α → List String) (n : String)
    (hp : ∀ a ∈ l, (h (g a)).count n = (h a).count n) :
    ((l.map g).flatMap h).count n = (l.flatMap h).count n := by
  induction l with
  | nil => rfl
  | cons a t ih =>
    simp only [List.map_cons, List.flatMap_cons, List.count_append]
    rw [hp a (List.mem_cons_self _ _),
      ih fun x hx => hp x (List.mem_cons_of_mem _ hx)]

/-- The key and value lists of the renumber map: the keys are the surviving
names, the values are the canonical names of the renamed parameters. -/
theorem renumber_pairs (ps : List GenericParam) :
    ∀ k, (renumber ps k).2.map Prod.fst = ltNames ps ∧
      (renumber ps k).2.map Prod.snd = ltNames (renumber ps k).1 := by
  induction ps with
  | nil => intro k; exact ⟨rfl, rfl⟩
  | cons gp rest ih =>
    intro k
    cases gp with
    | lifetimeParam n =>
      obtain ⟨h1, h2⟩ := ih (k + 1)
      constructor
      · show ((n, mkLt k) :: (renumber rest (k + 1)).2).map Prod.fst =
          ltNames (.lifetimeParam n :: rest)
        rw [List.map_cons, h1, ltNames_cons_lifetime]
      · show ((n, mkLt k) :: (renumber rest (k + 1)).2).map Prod.snd =
          ltNames (.lifetimeParam (mkLt k) :: (renumber rest (k + 1)).1)
        rw [List.map_cons, h2, ltNames_cons_lifetime]
    | typeParam nm b =>
      obtain ⟨h1, h2⟩ := ih k
      constructor
      · show (renumber rest k).2.map Prod.fst = ltNames (.typeParam nm b :: rest)
        rw [ltNames_cons_type]
        exact h1
      · show (renumber rest k).2.map Prod.snd =
          ltNames (.typeParam nm b :: (renumber rest k).1)
        rw [ltNames_cons_type]
        exact h2

/-- lookupLast finds nothing when the name is no key. -/
theorem lookupLast_not_mem (n : String) :
    ∀ m : List (String × String), ((m.map Prod.fst).contains n) = false →
      lookupLast n m = none := by
  intro m
  induction m with
  | nil => intro _; rfl
  | cons q rest ih =>
    intro h
    simp only [List.map_cons, List.contains_cons] at h
    have hsplit : (n == q.1) = false ∧ ((rest.map Prod.fst).contains n) = false := by
      rcases hb1 : (n == q.1) with _ | _ <;> rcases hb2 : (rest.map Prod.fst).contains n with _ | _ <;>
        rw [hb1, hb2] at h <;> simp_all
    have hq : (q.1 == n) = false := by
      apply beq_false_of_ne
      intro he
      rw [he] at hsplit
      simp at hsplit
    obtain ⟨k, v⟩ := q
    simp only [lookupLast, ih hsplit.2]
    simpa using hq

/-- On distinct keys, lookupLast returns each entry's value. -/
theorem lookupLast_distinct :
    ∀ m : List (String × String), distinctB (m.map Prod.fst) = true →
      ∀ p ∈ m, lookupLast p.1 m = some p.2 := by
  intro m
  induction m with
  | nil => intro _ p hp; cases hp
  | cons q rest ih =>
    intro hd p hp
    have hd1 : ((rest.map Prod.fst).contains q.1) = false := by
      simp only [List.map_cons, distinctB, Bool.and_eq_true,
        Bool.not_eq_true'] at hd
      exact hd.1
    have hd2 : distinctB (rest.map Prod.fst) = true := by
      simp only [List.map_cons, distinctB, Bool.and_eq_true] at hd
      exact hd.2
    rcases List.mem_cons.mp hp with rfl | hmem
    · have hnone : lookupLast p.1 rest = none := lookupLast_not_mem p.1 rest hd1
      obtain ⟨k, v⟩ := p
      simp only [lookupLast] at hnone ⊢
      rw [hnone]
      simp
    · have := ih hd2 p hmem
      obtain ⟨k, v⟩ := q
      simp only [lookupLast]
      rw [this]

/-- Renumbering a parameter list that already carries the canonical names is
the identity, and its map is diagonal. -/
theorem renumber_canonical :
    ∀ (ps : List GenericParam) (k : Nat),
      ltNames ps = (List.range (ltNames ps).length).map (fun i => mkLt (k + i)) →
      (renumber ps k).1 = ps ∧ ∀ p ∈ (renumber ps k).2, p.1 = p.2 := by
  intro ps
  induction ps with
  | nil => intro k _; exact ⟨rfl, fun p hp => absurd hp (List.not_mem_nil p)⟩
  | cons gp rest ih =>
    intro k h
    cases gp with
    | lifetimeParam n =>
      rw [ltNames_cons_lifetime] at h
      rw [List.length_cons, List.range_succ_eq_map, List.map_cons,
        List.map_map] at h
      rw [List.cons.injEq] at h
      obtain ⟨h1, h2⟩ := h
      have hmaps : (List.range (ltNames rest).length).map
            ((fun i => mkLt (k + i)) ∘ Nat.succ) =
          (List.range (ltNames rest).length).map fun i => mkLt (k + 1 + i) := by
        refine List.map_congr_left ?_
        intro a _
        simp only [Function.comp]
        congr 1
        omega
      have h2a : ltNames rest =
          (List.range (ltNames rest).length).map fun i => mkLt (k + 1 + i) :=
        h2.trans hmaps
      obtain ⟨ih1, ih2⟩ := ih (k + 1) h2a
      constructor
      · show GenericParam.lifetimeParam (mkLt k) :: (renumber rest (k + 1)).1 =
          .lifetimeParam n :: rest
        rw [ih1, h1]
        simp
      · intro p hp
        rcases List.mem_cons.mp hp with rfl | hmem
        · simpa using h1
        · exact ih2 p hmem
    | typeParam nm b =>
      rw [ltNames_cons_type] at h
      obtain ⟨ih1, ih2⟩ := ih k h
      constructor
      · show GenericParam.typeParam nm b :: (renumber rest k).1 =
          .typeParam nm b :: rest
        rw [ih1]
      · exact ih2

/-- any isLtParam is non-emptiness of the lifetime-name list. -/
theorem any_isLtParam_eq (ps : List GenericParam) :
    ps.any isLtParam = !(ltNames ps).isEmpty := by
  induction ps with
  | nil => rfl
  | cons gp rest ih =>
    cases gp with
    | lifetimeParam n =>
      rw [List.any_cons, ltNames_cons_lifetime]
      simp [isLtParam]
    | typeParam nm b =>
      rw [List.any_cons, ltNames_cons_type]
      simp [isLtParam, ih]

/-- Renumbering does not change the non-lifetime generic-parameter types. -/
theorem renumber_gpLts (ps : List GenericParam) :
    ∀ k, (renumber ps k).1.flatMap gpLts = ps.flatMap gpLts := by
  induction ps with
  | nil => intro k; rfl
  | cons gp rest ih =>
    intro k
    cases gp with
    | lifetimeParam n =>
      show (GenericParam.lifetimeParam (mkLt k) ::
        (renumber rest (k + 1)).1).flatMap gpLts = _
      rw [List.flatMap_cons, List.flatMap_cons, ih (k + 1)]
      rfl
    | typeParam nm b =>
      show (GenericParam.typeParam nm b :: (renumber rest k).1).flatMap gpLts = _
      rw [List.flatMap_cons, List.flatMap_cons, ih k]

/-- The filter keeps every non-lifetime parameter, so the generic-parameter
usage region is unchanged. -/
theorem filter_keep_gpLts (c : List String) (f : String → Nat)
    (ps : List GenericParam) :
    (ps.filter (keepParam c f)).flatMap gpLts = ps.flatMap gpLts := by
  induction ps with
  | nil => rfl
  | cons gp rest ih =>
    cases gp with
    | lifetimeParam n =>
      by_cases h : keepParam c f (.lifetimeParam n) = true <;>
        simp [List.filter_cons, h, List.flatMap_cons, gpLts, ih]
    | typeParam nm b =>
      have h : keepParam c f (.typeParam nm b) = true := rfl
      simp [List.filter_cons, h, List.flatMap_cons, ih]

/-- A type-parameter member of the renumbered list was in the original. -/
theorem renumber_mem_typeParam (nm : String) (b : Ty) :
    ∀ (ps : List GenericParam) (k : Nat),
      GenericParam.typeParam nm b ∈ (renumber ps k).1 →
      GenericParam.typeParam nm b ∈ ps := by
  intro ps
  induction ps with
  | nil => intro k h; exact absurd h (List.not_mem_nil _)
  | cons gp rest ih =>
    intro k h
    cases gp with
    | lifetimeParam n =>
      have h2 : GenericParam.typeParam nm b ∈
          GenericParam.lifetimeParam (mkLt k) :: (renumber rest (k + 1)).1 := h
      rcases List.mem_cons.mp h2 with heq | hmem
      · exact absurd heq (by simp)
      · exact List.mem_cons_of_mem _ (ih (k + 1) hmem)
    | typeParam nm2 b2 =>
      have h2 : GenericParam.typeParam nm b ∈
          GenericParam.typeParam nm2 b2 :: (renumber rest k).1 := h
      rcases List.mem_cons.mp h2 with heq | hmem
      · exact List.mem_cons.mpr (Or.inl heq)
      · exact List.mem_cons_of_mem _ (ih k hmem)

/-- Containment descends from a filtered list. -/
theorem contains_of_filter (p : String → Bool) (l : List String) (x : String)
    (h : ((l.filter p).contains x) = true) : (l.contains x) = true := by
  have hm : x ∈ l.filter p := List.elem_iff.mp h
  exact List.elem_iff.mpr (List.mem_of_mem_filter hm)

/-- Distinctness is preserved by filtering. -/
theorem distinctB_filter (p : String → Bool) :
    ∀ l : List String, distinctB l = true → distinctB (l.filter p) = true := by
  intro l
  induction l with
  | nil => intro _; rfl
  | cons x xs ih =>
    intro h
    simp only [distinctB, Bool.and_eq_true, Bool.not_eq_true'] at h
    rw [List.filter_cons]
    by_cases hp : p x = true
    · rw [if_pos hp]
      simp only [distinctB, Bool.and_eq_true, Bool.not_eq_true']
      refine ⟨?_, ih h.2⟩
      by_cases hc : ((xs.filter p).contains x) = true
      · have hcc := contains_of_filter p xs x hc
        rw [h.1] at hcc
        exact absurd hcc (by simp)
      · simpa using hc
    · rw [if_neg hp]
      exact ih h.2

/-- The strip and rename maps preserve where the receiver sits. -/
theorem anyReceiver_maps (c : List String) (f : String → Nat)
    (m : List (String × String)) (l : List FnArg) :
    (((l.map (stripArg c f)).map (changeArg m)).any fun a =>
        match a with
        | .receiver => true
        | .typed _ => false) =
      (l.any fun a =>
        match a with
        | .receiver => true
        | .typed _ => false) := by
  induction l with
  | nil => rfl
  | cons a rest ih =>
    cases a <;> simp only [List.map_cons, List.any_cons, stripArg, changeArg] <;>
      rw [ih]

/-! ## Idempotence of the elision pass under side conditions -/

/-- The elider passes the incoming has_struct_lt flag through unchanged. -/
theorem elider_hasStructLt (a h : Bool) (sig : Signature) :
    (fn_lifetime_elider a h sig).hasStructLt = h := by
  unfold fn_lifetime_elider
  split <;> rfl

/-- The rewritten signature does not depend on the incoming flags. -/
theorem elider_sig_flagfree (a h : Bool) (sig : Signature) :
    (fn_lifetime_elider a h sig).sig = elideSig sig := by
  unfold elideSig fn_lifetime_elider
  split <;> rfl

/-- The surviving names before renumbering are the survivors of the
signature. -/
theorem ltNames_eParams2 (sig : Signature) :
    ltNames (eParams2 sig) = survivors sig := by
  unfold eParams2
  rw [ltNames_filter_keep, ltNames_map_stripGp]
  rfl

/-- The annotations_left flag is the incoming flag or the visit's
contribution. -/
theorem elider_annot (a h : Bool) (sig : Signature) :
    (fn_lifetime_elider a h sig).annotationsLeft =
      (a || elideContribution sig) := by
  by_cases hr : hasReceiver sig = true
  · unfold fn_lifetime_elider elideContribution
    rw [if_pos hr, if_pos hr]
    simp
  · have hrf : hasReceiver sig = false := by simpa using hr
    unfold fn_lifetime_elider elideContribution
    rw [if_neg hr, if_neg hr]
    show (a || ((sig.generics.params.map
        (stripGp (cannotElide sig) (cntOf sig))).filter
        (keepParam (cannotElide sig) (cntOf sig))).any isLtParam) =
      (a || !(survivors sig).isEmpty)
    rw [any_isLtParam_eq]
    have h2 : ltNames ((sig.generics.params.map
        (stripGp (cannotElide sig) (cntOf sig))).filter
        (keepParam (cannotElide sig) (cntOf sig))) = survivors sig :=
      ltNames_eParams2 sig
    rw [h2]

/-- A receiver-bearing signature is returned unchanged. -/
theorem elideSig_receiver (sig : Signature) (hr : hasReceiver sig = true) :
    elideSig sig = sig := by
  unfold elideSig fn_lifetime_elider
  rw [if_pos hr]

/-- The elider's rewritten signature, component by component, for a
receiver-free signature. -/
theorem elideSig_eq (sig : Signature) (hr : hasReceiver sig = false) :
    elideSig sig =
      { generics :=
          { params := (renumber (eParams2 sig) 0).1.map (changeGp (eMap sig)),
            whereClause := sig.generics.whereClause.map fun preds =>
              preds.map (renamePred (eMap sig)) },
        inputs := (sig.inputs.map
          (stripArg (cannotElide sig) (cntOf sig))).map (changeArg (eMap sig)),
        output := (sig.output.map
          (Ty.strip (cannotElide sig) (cntOf sig))).map
            fun t => (Ty.changeLt (eMap sig) t).1 } := by
  unfold elideSig fn_lifetime_elider eMap eParams2
  rw [if_neg (by simp [hr])]

/-- eParams2 filters the stripped parameters. -/
theorem eParams2_eq (sig : Signature) :
    eParams2 sig =
      (eStripParams sig).filter (keepParam (cannotElide sig) (cntOf sig)) := rfl

/-- Return-type lifetimes are in cannot_elide. -/
theorem outputLts_sub_cannot (sig : Signature) :
    ∀ id ∈ outputLts sig, (cannotElide sig).contains id = true := by
  intro id hid
  exact List.elem_iff.mpr (List.mem_append_right _ hid)

/-- The strip stage never touches the return type. -/
theorem elider_output_unstripped (sig : Signature) :
    sig.output.map (Ty.strip (cannotElide sig) (cntOf sig)) = sig.output := by
  cases ho : sig.output with
  | none => rfl
  | some t =>
    show some (Ty.strip (cannotElide sig) (cntOf sig) t) = some t
    congr 1
    apply strip_eq_self
    intro id hid
    left
    apply outputLts_sub_cannot
    have h2 : outputLts sig = t.lts := by unfold outputLts; rw [ho]
    rw [h2]
    exact hid

/-- Membership in the lifetime-name list. -/
theorem mem_ltNames (n : String) (ps : List GenericParam) :
    n ∈ ltNames ps ↔ GenericParam.lifetimeParam n ∈ ps := by
  unfold ltNames
  rw [List.mem_filterMap]
  constructor
  · rintro ⟨gp, hgp, hf⟩
    cases gp with
    | lifetimeParam m =>
      have : m = n := by simpa using hf
      subst this
      exact hgp
    | typeParam nm b => simp at hf
  · intro h
    exact ⟨GenericParam.lifetimeParam n, h, rfl⟩

/-- noArgLt holds on every typed input. -/
theorem sigNoArgLt_inputs (sig : Signature) (hn : sigNoArgLt sig = true) :
    ∀ t : Ty, FnArg.typed t ∈ sig.inputs → t.noArgLt = true := by
  intro t ht
  unfold sigNoArgLt at hn
  simp only [Bool.and_eq_true, List.all_eq_true] at hn
  exact hn.1.1 (FnArg.typed t) ht

/-- noArgLt holds on the return type. -/
theorem sigNoArgLt_output (sig : Signature) (hn : sigNoArgLt sig = true) :
    ∀ t : Ty, sig.output = some t → t.noArgLt = true := by
  intro t ht
  unfold sigNoArgLt at hn
  simp only [Bool.and_eq_true, List.all_eq_true] at hn
  have h2 := hn.1.2
  rw [ht] at h2
  exact h2

/-- noArgLt holds on every type-parameter bound. -/
theorem sigNoArgLt_params (sig : Signature) (hn : sigNoArgLt sig = true) :
    ∀ (nm : String) (b : Ty),
      GenericParam.typeParam nm b ∈ sig.generics.params → b.noArgLt = true := by
  intro nm b hb
  unfold sigNoArgLt at hn
  simp only [Bool.and_eq_true, List.all_eq_true] at hn
  exact hn.2 (GenericParam.typeParam nm b) hb

/-- Typed members of the stripped inputs are strips of typed inputs. -/
theorem mem_eStripInputs (sig : Signature) :
    ∀ t : Ty, FnArg.typed t ∈ eStripInputs sig →
      ∃ t0, FnArg.typed t0 ∈ sig.inputs ∧
        t = Ty.strip (cannotElide sig) (cntOf sig) t0 := by
  intro t ht
  unfold eStripInputs at ht
  rcases List.mem_map.mp ht with ⟨a, ha, hae⟩
  cases a with
  | receiver => simp [stripArg] at hae
  | typed t0 =>
    refine ⟨t0, ha, ?_⟩
    have h2 : Ty.strip (cannotElide sig) (cntOf sig) t0 = t := by
      simpa [stripArg] using hae
    exact h2.symm

/-- Type-parameter members of the stripped parameters are strips of original
type parameters. -/
theorem mem_eStripParams (sig : Signature) :
    ∀ (nm : String) (b : Ty),
      GenericParam.typeParam nm b ∈ eStripParams sig →
      ∃ b0, GenericParam.typeParam nm b0 ∈ sig.generics.params ∧
        b = Ty.strip (cannotElide sig) (cntOf sig) b0 := by
  intro nm b hb
  unfold eStripParams at hb
  rcases List.mem_map.mp hb with ⟨gp, hgp, hge⟩
  cases gp with
  | lifetimeParam n => simp [stripGp] at hge
  | typeParam nm0 b0 =>
    have h2 : nm0 = nm ∧ Ty.strip (cannotElide sig) (cntOf sig) b0 = b := by
      simpa [stripGp] using hge
    rcases h2 with ⟨rfl, h3⟩
    exact ⟨b0, hgp, h3.symm⟩

/-- The rewritten inputs as the rename map applied to the stripped inputs. -/
theorem inputs_elideSig (sig : Signature) (hr : hasReceiver sig = false) :
    (elideSig sig).inputs = (eStripInputs sig).map (changeArg (eMap sig)) := by
  rw [elideSig_eq sig hr]
  rfl

/-- The rewritten parameters, stage by stage. -/
theorem params_elideSig (sig : Signature) (hr : hasReceiver sig = false) :
    (elideSig sig).generics.params =
      (renumber (eParams2 sig) 0).1.map (changeGp (eMap sig)) := by
  rw [elideSig_eq sig hr]

/-- The rewritten where clause. -/
theorem whereClause_elideSig (sig : Signature) (hr : hasReceiver sig = false) :
    (elideSig sig).generics.whereClause =
      sig.generics.whereClause.map fun preds =>
        preds.map (renamePred (eMap sig)) := by
  rw [elideSig_eq sig hr]

/-- The rewritten inputs, member by member. -/
theorem mem_inputs_elideSig (sig : Signature) (hr : hasReceiver sig = false)
    (hn : sigNoArgLt sig = true) :
    ∀ a ∈ (elideSig sig).inputs, a = FnArg.receiver ∨
      ∃ t0, FnArg.typed t0 ∈ sig.inputs ∧
        a = FnArg.typed (Ty.renameLts (eRen sig)
          (Ty.strip (cannotElide sig) (cntOf sig) t0)) := by
  intro a ha
  rw [inputs_elideSig sig hr] at ha
  rcases List.mem_map.mp ha with ⟨a1, ha1, hae⟩
  cases a1 with
  | receiver => left; rw [← hae]; rfl
  | typed t1 =>
    right
    rcases mem_eStripInputs sig t1 ha1 with ⟨t0, ht0, rfl⟩
    refine ⟨t0, ht0, ?_⟩
    rw [← hae]
    show FnArg.typed
      (Ty.changeLt (eMap sig) (Ty.strip (cannotElide sig) (cntOf sig) t0)).1 = _
    rw [changeLt_of_noArgLt (eMap sig) _ (by
      rw [noArgLt_strip]
      exact sigNoArgLt_inputs sig hn t0 ht0)]
    rfl

/-- The rewritten parameters, member by member. -/
theorem mem_params_elideSig (sig : Signature) (hr : hasReceiver sig = false)
    (hn : sigNoArgLt sig = true) :
    ∀ gp ∈ (elideSig sig).generics.params,
      (∃ n, gp = GenericParam.lifetimeParam n) ∨
      ∃ nm b0, GenericParam.typeParam nm b0 ∈ sig.generics.params ∧
        gp = GenericParam.typeParam nm (Ty.renameLts (eRen sig)
          (Ty.strip (cannotElide sig) (cntOf sig) b0)) := by
  intro gp hgp
  rw [params_elideSig sig hr] at hgp
  rcases List.mem_map.mp hgp with ⟨gp1, hgp1, hge⟩
  cases gp1 with
  | lifetimeParam n => exact Or.inl ⟨n, by rw [← hge]; rfl⟩
  | typeParam nm b1 =>
    right
    have hmem2 : GenericParam.typeParam nm b1 ∈ eParams2 sig :=
      renumber_mem_typeParam nm b1 (eParams2 sig) 0 hgp1
    have hmem3 : GenericParam.typeParam nm b1 ∈ eStripParams sig := by
      rw [eParams2_eq] at hmem2
      exact List.mem_of_mem_filter hmem2
    rcases mem_eStripParams sig nm b1 hmem3 with ⟨b0, hb0, rfl⟩
    refine ⟨nm, b0, hb0, ?_⟩
    rw [← hge]
    show GenericParam.typeParam nm
      (Ty.changeLt (eMap sig) (Ty.strip (cannotElide sig) (cntOf sig) b0)).1 = _
    rw [changeLt_of_noArgLt (eMap sig) _ (by
      rw [noArgLt_strip]
      exact sigNoArgLt_params sig hn nm b0 hb0)]
    rfl

/-- The rewritten output renames the unchanged return type. -/
theorem output_elideSig (sig : Signature) (hr : hasReceiver sig = false)
    (hn : sigNoArgLt sig = true) :
    (elideSig sig).output = sig.output.map (Ty.renameLts (eRen sig)) := by
  have hE : (elideSig sig).output =
      (sig.output.map (Ty.strip (cannotElide sig) (cntOf sig))).map
        fun t => (Ty.changeLt (eMap sig) t).1 := by
    rw [elideSig_eq sig hr]
  rw [hE, elider_output_unstripped]
  cases ho : sig.output with
  | none => rfl
  | some t =>
    show some (Ty.changeLt (eMap sig) t).1 = some (Ty.renameLts (eRen sig) t)
    rw [changeLt_of_noArgLt (eMap sig) t (sigNoArgLt_output sig hn t ho)]
    rfl

/-- The rewritten return-type lifetimes are the renamed originals. -/
theorem outputLts_elideSig (sig : Signature) (hr : hasReceiver sig = false)
    (hn : sigNoArgLt sig = true) :
    outputLts (elideSig sig) = (outputLts sig).map (eRen sig) := by
  unfold outputLts
  rw [output_elideSig sig hr hn]
  cases sig.output with
  | none => rfl
  | some t => exact lts_renameLts (eRen sig) t

/-- The rewritten input lifetimes are the renamed stripped ones. -/
theorem inputLts_elideSig (sig : Signature) (hr : hasReceiver sig = false)
    (hn : sigNoArgLt sig = true) :
    inputLts (elideSig sig) =
      ((eStripInputs sig).flatMap argLts).map (eRen sig) := by
  rw [inputLts_eq_flatMap, inputs_elideSig sig hr]
  apply flatMap_map_rename
  intro a ha
  cases a with
  | receiver => rfl
  | typed t =>
    rcases mem_eStripInputs sig t ha with ⟨t0, ht0, rfl⟩
    show (Ty.changeLt (eMap sig)
        (Ty.strip (cannotElide sig) (cntOf sig) t0)).1.lts =
      (Ty.strip (cannotElide sig) (cntOf sig) t0).lts.map (eRen sig)
    rw [changeLt_of_noArgLt (eMap sig) _ (by
      rw [noArgLt_strip]
      exact sigNoArgLt_inputs sig hn t0 ht0)]
    exact lts_renameLts _ _

/-- The rewritten generic-parameter lifetimes are the renamed stripped
ones. -/
theorem genParamLts_elideSig (sig : Signature) (hr : hasReceiver sig = false)
    (hn : sigNoArgLt sig = true) :
    genParamLts (elideSig sig) =
      ((eStripParams sig).flatMap gpLts).map (eRen sig) := by
  rw [genParamLts_eq_flatMap, params_elideSig sig hr]
  have h1 : ((renumber (eParams2 sig) 0).1.map
        (changeGp (eMap sig))).flatMap gpLts =
      ((renumber (eParams2 sig) 0).1.flatMap gpLts).map (eRen sig) := by
    apply flatMap_map_rename
    intro gp hgp
    cases gp with
    | lifetimeParam n => rfl
    | typeParam nm b =>
      have hb : b.noArgLt = true := by
        have hmem2 : GenericParam.typeParam nm b ∈ eParams2 sig :=
          renumber_mem_typeParam nm b (eParams2 sig) 0 hgp
        have hmem3 : GenericParam.typeParam nm b ∈ eStripParams sig := by
          rw [eParams2_eq] at hmem2
          exact List.mem_of_mem_filter hmem2
        rcases mem_eStripParams sig nm b hmem3 with ⟨b0, hb0, rfl⟩
        rw [noArgLt_strip]
        exact sigNoArgLt_params sig hn nm b0 hb0
      show (Ty.changeLt (eMap sig) b).1.lts = b.lts.map (eRen sig)
      rw [changeLt_of_noArgLt (eMap sig) b hb]
      exact lts_renameLts _ _
  rw [h1, renumber_gpLts, eParams2_eq, filter_keep_gpLts]

/-- The usage vector of the rewritten signature renames the stripped usage
vector. -/
theorem usageList_elideSig (sig : Signature) (hr : hasReceiver sig = false)
    (hn : sigNoArgLt sig = true) :
    usageList (elideSig sig) = (eStripUsage sig).map (eRen sig) := by
  unfold usageList eStripUsage
  rw [inputLts_elideSig sig hr hn, outputLts_elideSig sig hr hn,
    genParamLts_elideSig sig hr hn, List.map_append, List.map_append]

/-- The stripped usage vector counts protected names exactly as the original
usage vector does. -/
theorem count_eStripUsage (sig : Signature) (id : String)
    (hid : (cannotElide sig).contains id = true ∨ 2 ≤ cntOf sig id) :
    (eStripUsage sig).count id = cntOf sig id := by
  unfold eStripUsage cntOf usageList
  rw [inputLts_eq_flatMap, genParamLts_eq_flatMap]
  rw [List.count_append, List.count_append, List.count_append,
    List.count_append]
  have h1 : ((eStripInputs sig).flatMap argLts).count id =
      (sig.inputs.flatMap argLts).count id := by
    unfold eStripInputs
    apply flatMap_map_count
    intro a _
    cases a with
    | receiver => rfl
    | typed t => exact count_lts_strip (cannotElide sig) (cntOf sig) id hid t
  have h2 : ((eStripParams sig).flatMap gpLts).count id =
      (sig.generics.params.flatMap gpLts).count id := by
    unfold eStripParams
    apply flatMap_map_count
    intro gp _
    cases gp with
    | lifetimeParam n => rfl
    | typeParam nm b =>
      exact count_lts_strip (cannotElide sig) (cntOf sig) id hid b
  rw [h1, h2]

/-- Counts of protected names can only grow through the rewrite. -/
theorem cnt_elideSig_ge (sig : Signature) (hr : hasReceiver sig = false)
    (hn : sigNoArgLt sig = true) (id : String)
    (hid : (cannotElide sig).contains id = true ∨ 2 ≤ cntOf sig id) :
    cntOf sig id ≤ cntOf (elideSig sig) (eRen sig id) := by
  show cntOf sig id ≤ (usageList (elideSig sig)).count (eRen sig id)
  rw [usageList_elideSig sig hr hn]
  calc cntOf sig id
      = (eStripUsage sig).count id := (count_eStripUsage sig id hid).symm
    _ ≤ ((eStripUsage sig).map (eRen sig)).count (eRen sig id) :=
        count_le_count_map (eRen sig) id (eStripUsage sig)

/-- cannot_elide of the rewritten signature is the renamed original. -/
theorem cannotElide_elideSig (sig : Signature) (hr : hasReceiver sig = false)
    (hn : sigNoArgLt sig = true) :
    cannotElide (elideSig sig) = (cannotElide sig).map (eRen sig) := by
  unfold cannotElide
  rw [List.map_append]
  congr 1
  · rw [whereCannot_eq, whereCannot_eq, whereClause_elideSig sig hr]
    cases hw : sig.generics.whereClause with
    | none => rfl
    | some preds =>
      show (preds.map (renamePred (eMap sig))).flatMap predHeadNames =
        (preds.flatMap predHeadNames).map (eRen sig)
      apply flatMap_map_rename
      intro wp _
      rfl
  · exact outputLts_elideSig sig hr hn

/-- The protection condition transports along the rename. -/
theorem cond_elideSig (sig : Signature) (hr : hasReceiver sig = false)
    (hn : sigNoArgLt sig = true) (id : String)
    (hid : (cannotElide sig).contains id = true ∨ 2 ≤ cntOf sig id) :
    (cannotElide (elideSig sig)).contains (eRen sig id) = true ∨
      2 ≤ cntOf (elideSig sig) (eRen sig id) := by
  rcases hid with h | h
  · left
    rw [cannotElide_elideSig sig hr hn]
    exact List.elem_iff.mpr (List.mem_map_of_mem _ (List.elem_iff.mp h))
  · right
    exact le_trans h (cnt_elideSig_ge sig hr hn id (Or.inr h))

/-- The rewritten parameter names are canonical. -/
theorem ltNames_elideSig (sig : Signature) (hr : hasReceiver sig = false) :
    ltNames (elideSig sig).generics.params =
      (List.range (survivors sig).length).map fun i => mkLt (0 + i) := by
  rw [params_elideSig sig hr, ltNames_map_changeGp, ltNames_renumber,
    ltNames_eParams2]

/-- hasReceiver is preserved by the rewrite. -/
theorem hasReceiver_elideSig (sig : Signature) (hr : hasReceiver sig = false) :
    hasReceiver (elideSig sig) = false := by
  unfold hasReceiver
  rw [inputs_elideSig sig hr]
  unfold eStripInputs
  rw [anyReceiver_maps]
  exact hr

/-- The rewrite preserves the absence of generic-argument lifetimes. -/
theorem sigNoArgLt_elideSig (sig : Signature) (hr : hasReceiver sig = false)
    (hn : sigNoArgLt sig = true) : sigNoArgLt (elideSig sig) = true := by
  unfold sigNoArgLt
  simp only [Bool.and_eq_true, List.all_eq_true]
  refine ⟨⟨?_, ?_⟩, ?_⟩
  · intro a ha
    rcases mem_inputs_elideSig sig hr hn a ha with rfl | ⟨t0, ht0, rfl⟩
    · rfl
    · show (Ty.renameLts (eRen sig)
        (Ty.strip (cannotElide sig) (cntOf sig) t0)).noArgLt = true
      rw [noArgLt_renameLts, noArgLt_strip]
      exact sigNoArgLt_inputs sig hn t0 ht0
  · rw [output_elideSig sig hr hn]
    cases ho : sig.output with
    | none => rfl
    | some t0 =>
      show (Ty.renameLts (eRen sig) t0).noArgLt = true
      rw [noArgLt_renameLts]
      exact sigNoArgLt_output sig hn t0 ho
  · intro gp hgp
    rcases mem_params_elideSig sig hr hn gp hgp with ⟨n, rfl⟩ | ⟨nm, b0, hb0, rfl⟩
    · rfl
    · show (Ty.renameLts (eRen sig)
        (Ty.strip (cannotElide sig) (cntOf sig) b0)).noArgLt = true
      rw [noArgLt_renameLts, noArgLt_strip]
      exact sigNoArgLt_params sig hn nm b0 hb0

/-- Every rewritten lifetime parameter passes the filter again. -/
theorem keep_elideSig (sig : Signature) (hr : hasReceiver sig = false)
    (hd : distinctB (declaredLts sig) = true)
    (hn : sigNoArgLt sig = true) :
    ∀ nm ∈ ltNames (elideSig sig).generics.params,
      keepParam (cannotElide (elideSig sig)) (cntOf (elideSig sig))
        (.lifetimeParam nm) = true := by
  intro nm hnm
  have hvals : (eMap sig).map Prod.snd =
      ltNames (renumber (eParams2 sig) 0).1 :=
    (renumber_pairs (eParams2 sig) 0).2
  have hkeys : (eMap sig).map Prod.fst = survivors sig := by
    rw [show (eMap sig).map Prod.fst = ltNames (eParams2 sig) from
      (renumber_pairs (eParams2 sig) 0).1, ltNames_eParams2]
  have hnm2 : nm ∈ (eMap sig).map Prod.snd := by
    rw [hvals]
    rw [params_elideSig sig hr, ltNames_map_changeGp] at hnm
    exact hnm
  rcases List.mem_map.mp hnm2 with ⟨p, hp, hpnm⟩
  have hdk : distinctB ((eMap sig).map Prod.fst) = true := by
    rw [hkeys]
    exact distinctB_filter _ (declaredLts sig) hd
  have hlook : lookupLast p.1 (eMap sig) = some p.2 :=
    lookupLast_distinct (eMap sig) hdk p hp
  have hren : eRen sig p.1 = nm := by
    unfold eRen
    rw [hlook]
    simpa using hpnm
  have hkey1 : p.1 ∈ survivors sig := by
    rw [← hkeys]
    exact List.mem_map_of_mem Prod.fst hp
  have hkeep1 : keepParam (cannotElide sig) (cntOf sig)
      (.lifetimeParam p.1) = true := (List.mem_filter.mp hkey1).2
  have h0 : ¬ cntOf sig p.1 = 0 := by
    intro h0
    rw [show keepParam (cannotElide sig) (cntOf sig) (.lifetimeParam p.1) =
      (if cntOf sig p.1 = 0 then false else
        (decide (1 < cntOf sig p.1) || (cannotElide sig).contains p.1))
      from rfl, if_pos h0] at hkeep1
    cases hkeep1
  have hkeep2 : (decide (1 < cntOf sig p.1) ||
      (cannotElide sig).contains p.1) = true := by
    rw [show keepParam (cannotElide sig) (cntOf sig) (.lifetimeParam p.1) =
      (if cntOf sig p.1 = 0 then false else
        (decide (1 < cntOf sig p.1) || (cannotElide sig).contains p.1))
      from rfl, if_neg h0] at hkeep1
    exact hkeep1
  have hcond : (cannotElide sig).contains p.1 = true ∨ 2 ≤ cntOf sig p.1 := by
    rcases hb : decide (1 < cntOf sig p.1) with _ | _
    · rw [hb] at hkeep2
      left
      simpa using hkeep2
    · right
      have := of_decide_eq_true hb
      omega
  have hge : cntOf sig p.1 ≤ cntOf (elideSig sig) nm := by
    rw [← hren]
    exact cnt_elideSig_ge sig hr hn p.1 hcond
  have hnz : ¬ cntOf (elideSig sig) nm = 0 := by omega
  show (if cntOf (elideSig sig) nm = 0 then false else
    (decide (1 < cntOf (elideSig sig) nm) ||
      (cannotElide (elideSig sig)).contains nm)) = true
  rw [if_neg hnz]
  rcases hcond with h | h
  · have h2 := cond_elideSig sig hr hn p.1 (Or.inl h)
    rw [hren] at h2
    rcases h2 with h2 | h2
    · rw [h2]; simp
    · have hdec : decide (1 < cntOf (elideSig sig) nm) = true := by
        apply decide_eq_true; omega
      rw [hdec]; simp
  · have hdec : decide (1 < cntOf (elideSig sig) nm) = true := by
      apply decide_eq_true; omega
    rw [hdec]; simp

/-- The second strip pass leaves the rewritten inputs unchanged. -/
theorem strip_inputs_elideSig (sig : Signature) (hr : hasReceiver sig = false)
    (hn : sigNoArgLt sig = true) :
    (elideSig sig).inputs.map
        (stripArg (cannotElide (elideSig sig)) (cntOf (elideSig sig))) =
      (elideSig sig).inputs := by
  have hpt : ∀ a ∈ (elideSig sig).inputs,
      stripArg (cannotElide (elideSig sig)) (cntOf (elideSig sig)) a = id a := by
    intro a ha
    rcases mem_inputs_elideSig sig hr hn a ha with rfl | ⟨t0, ht0, rfl⟩
    · rfl
    · have hT : Ty.strip (cannotElide (elideSig sig)) (cntOf (elideSig sig))
          (Ty.renameLts (eRen sig) (Ty.strip (cannotElide sig) (cntOf sig) t0)) =
          Ty.renameLts (eRen sig) (Ty.strip (cannotElide sig) (cntOf sig) t0) := by
        apply strip_eq_self
        intro id hid
        rw [lts_renameLts] at hid
        rcases List.mem_map.mp hid with ⟨id0, hid0, rfl⟩
        rcases lts_strip_protected (cannotElide sig) (cntOf sig) t0
          (sigNoArgLt_inputs sig hn t0 ht0) id0 hid0 with ⟨hc0, _⟩
        exact cond_elideSig sig hr hn id0 hc0
      simp only [stripArg, id_eq, hT]
  rw [List.map_congr_left hpt, List.map_id]

/-- The second strip pass leaves the rewritten parameters unchanged. -/
theorem strip_params_elideSig (sig : Signature) (hr : hasReceiver sig = false)
    (hn : sigNoArgLt sig = true) :
    (elideSig sig).generics.params.map
        (stripGp (cannotElide (elideSig sig)) (cntOf (elideSig sig))) =
      (elideSig sig).generics.params := by
  have hpt : ∀ gp ∈ (elideSig sig).generics.params,
      stripGp (cannotElide (elideSig sig)) (cntOf (elideSig sig)) gp = id gp := by
    intro gp hgp
    rcases mem_params_elideSig sig hr hn gp hgp with ⟨n, rfl⟩ | ⟨nm, b0, hb0, rfl⟩
    · rfl
    · have hT : Ty.strip (cannotElide (elideSig sig)) (cntOf (elideSig sig))
          (Ty.renameLts (eRen sig) (Ty.strip (cannotElide sig) (cntOf sig) b0)) =
          Ty.renameLts (eRen sig) (Ty.strip (cannotElide sig) (cntOf sig) b0) := by
        apply strip_eq_self
        intro id hid
        rw [lts_renameLts] at hid
        rcases List.mem_map.mp hid with ⟨id0, hid0, rfl⟩
        rcases lts_strip_protected (cannotElide sig) (cntOf sig) b0
          (sigNoArgLt_params sig hn nm b0 hb0) id0 hid0 with ⟨hc0, _⟩
        exact cond_elideSig sig hr hn id0 hc0
      simp only [stripGp, id_eq, hT]
  rw [List.map_congr_left hpt, List.map_id]

/-- The second strip pass leaves the rewritten output unchanged. -/
theorem strip_output_elideSig (sig : Signature) (hr : hasReceiver sig = false)
    (hn : sigNoArgLt sig = true) :
    (elideSig sig).output.map
        (Ty.strip (cannotElide (elideSig sig)) (cntOf (elideSig sig))) =
      (elideSig sig).output := by
  rw [output_elideSig sig hr hn]
  cases ho : sig.output with
  | none => rfl
  | some t0 =>
    show some (Ty.strip (cannotElide (elideSig sig)) (cntOf (elideSig sig))
        (Ty.renameLts (eRen sig) t0)) = some (Ty.renameLts (eRen sig) t0)
    congr 1
    apply strip_eq_self
    intro id hid
    rw [lts_renameLts] at hid
    rcases List.mem_map.mp hid with ⟨id0, hid0, rfl⟩
    have hc0 : (cannotElide sig).contains id0 = true := by
      apply outputLts_sub_cannot
      have h2 : outputLts sig = t0.lts := by unfold outputLts; rw [ho]
      rw [h2]
      exact hid0
    exact cond_elideSig sig hr hn id0 (Or.inl hc0)

/-- On a signature with pairwise-distinct declared lifetime parameters and no
generic-argument lifetime, the elider's rewrite is idempotent and its
contribution to annotations_left is stable. -/
theorem elideSig_idem (sig : Signature)
    (hd : distinctB (declaredLts sig) = true)
    (hn : sigNoArgLt sig = true) :
    elideSig (elideSig sig) = elideSig sig ∧
      elideContribution (elideSig sig) = elideContribution sig := by
  by_cases hr : hasReceiver sig = true
  · rw [elideSig_receiver sig hr]
    exact ⟨elideSig_receiver sig hr, rfl⟩
  have hrf : hasReceiver sig = false := by simpa using hr
  have hrE : hasReceiver (elideSig sig) = false := hasReceiver_elideSig sig hrf
  have hnE : sigNoArgLt (elideSig sig) = true := sigNoArgLt_elideSig sig hrf hn
  have hp2E : eParams2 (elideSig sig) = (elideSig sig).generics.params := by
    unfold eParams2
    rw [show (elideSig sig).generics.params.map
        (stripGp (cannotElide (elideSig sig)) (cntOf (elideSig sig))) =
        (elideSig sig).generics.params from strip_params_elideSig sig hrf hn]
    apply List.filter_eq_self.mpr
    intro gp hgp
    cases gp with
    | lifetimeParam n =>
      exact keep_elideSig sig hrf hd hn n ((mem_ltNames n _).mpr hgp)
    | typeParam nm b => rfl
  have hcanon : ltNames (elideSig sig).generics.params =
      (List.range (ltNames (elideSig sig).generics.params).length).map
        fun i => mkLt (0 + i) := by
    rw [ltNames_elideSig sig hrf]
    simp
  have hren2 := renumber_canonical (elideSig sig).generics.params 0 hcanon
  have hMdiag : ∀ p ∈ eMap (elideSig sig), p.1 = p.2 := by
    unfold eMap
    rw [hp2E]
    exact hren2.2
  have hrid : ∀ n, (lookupLast n (eMap (elideSig sig))).getD n = n :=
    fun n => lookupLast_diag n (eMap (elideSig sig)) hMdiag
  constructor
  · rw [elideSig_eq (elideSig sig) hrE]
    have hparams : (renumber (eParams2 (elideSig sig)) 0).1.map
        (changeGp (eMap (elideSig sig))) = (elideSig sig).generics.params := by
      rw [hp2E, hren2.1]
      have hpt : ∀ gp ∈ (elideSig sig).generics.params,
          changeGp (eMap (elideSig sig)) gp = id gp := by
        intro gp hgp
        cases gp with
        | lifetimeParam n => rfl
        | typeParam nm b =>
          have hb : b.noArgLt = true :=
            sigNoArgLt_params (elideSig sig) hnE nm b hgp
          show GenericParam.typeParam nm
            (Ty.changeLt (eMap (elideSig sig)) b).1 = _
          rw [changeLt_of_noArgLt (eMap (elideSig sig)) b hb,
            renameLts_id _ hrid b]
          rfl
      rw [List.map_congr_left hpt, List.map_id]
    have hwc : (elideSig sig).generics.whereClause.map (fun preds =>
        preds.map (renamePred (eMap (elideSig sig)))) =
        (elideSig sig).generics.whereClause := by
      cases hw : (elideSig sig).generics.whereClause with
      | none => rfl
      | some preds =>
        show some (preds.map (renamePred (eMap (elideSig sig)))) = some preds
        congr 1
        have hpt : ∀ wp ∈ preds, renamePred (eMap (elideSig sig)) wp = id wp := by
          intro wp _
          show WherePred.mk
            ((lookupLast wp.lhs (eMap (elideSig sig))).getD wp.lhs)
            ((lookupLast wp.bound0 (eMap (elideSig sig))).getD wp.bound0)
            (wp.boundRest.map fun b =>
              (lookupLast b (eMap (elideSig sig))).getD b) = id wp
          rw [hrid wp.lhs, hrid wp.bound0]
          have hbr : (wp.boundRest.map fun b =>
              (lookupLast b (eMap (elideSig sig))).getD b) = wp.boundRest := by
            rw [List.map_congr_left fun b _ => hrid b]
            exact List.map_id _
          rw [hbr]
          rfl
        rw [List.map_congr_left hpt, List.map_id]
    have hinp : ((elideSig sig).inputs.map
        (stripArg (cannotElide (elideSig sig)) (cntOf (elideSig sig)))).map
          (changeArg (eMap (elideSig sig))) = (elideSig sig).inputs := by
      rw [strip_inputs_elideSig sig hrf hn]
      have hpt : ∀ a ∈ (elideSig sig).inputs,
          changeArg (eMap (elideSig sig)) a = id a := by
        intro a ha
        cases a with
        | receiver => rfl
        | typed t =>
          have ht : t.noArgLt = true :=
            sigNoArgLt_inputs (elideSig sig) hnE t ha
          show FnArg.typed (Ty.changeLt (eMap (elideSig sig)) t).1 = _
          rw [changeLt_of_noArgLt (eMap (elideSig sig)) t ht,
            renameLts_id _ hrid t]
          rfl
      rw [List.map_congr_left hpt, List.map_id]
    have hout : ((elideSig sig).output.map
        (Ty.strip (cannotElide (elideSig sig)) (cntOf (elideSig sig)))).map
          (fun t => (Ty.changeLt (eMap (elideSig sig)) t).1) =
        (elideSig sig).output := by
      rw [strip_output_elideSig sig hrf hn]
      cases ho : (elideSig sig).output with
      | none => rfl
      | some t =>
        have ht : t.noArgLt = true :=
          sigNoArgLt_output (elideSig sig) hnE t ho
        show some (Ty.changeLt (eMap (elideSig sig)) t).1 = some t
        rw [changeLt_of_noArgLt (eMap (elideSig sig)) t ht,
          renameLts_id _ hrid t]
    rw [hparams, hwc, hinp, hout]
  · have hsurvE : survivors (elideSig sig) =
        ltNames (elideSig sig).generics.params := by
      apply List.filter_eq_self.mpr
      intro n hn2
      exact keep_elideSig sig hrf hd hn n hn2
    simp only [elideContribution, hrE, hrf, Bool.false_eq_true, if_false]
    rw [hsurvE, ltNames_elideSig sig hrf]
    cases hs : survivors sig with
    | nil => rfl
    | cons a l => simp [List.range_succ_eq_map]

/-- One name-guarded visit, in closed form. -/
theorem elideSigStep_char (fnName : String) (st : Bool × Bool) (n : String)
    (sig : Signature) :
    elideSigStep fnName st n sig =
      ((if n == fnName then elideSig sig else sig),
       (st.1 || ((n == fnName) && elideContribution sig), st.2)) := by
  by_cases h : (n == fnName) = true
  · simp only [elideSigStep, h, if_true]
    rw [elider_sig_flagfree, elider_annot, elider_hasStructLt]
    simp
  · have hf : (n == fnName) = false := by simpa using h
    simp [elideSigStep, hf]

/-- The method visitor, in closed form. -/
theorem elideMethods_char (fnName : String) :
    ∀ (ms : List (String × Signature)) (st : Bool × Bool),
      elideMethods fnName ms st =
        (ms.map fun m => (m.1, if m.1 == fnName then elideSig m.2 else m.2),
         (st.1 || ms.any fun m => (m.1 == fnName) && elideContribution m.2,
          st.2)) := by
  intro ms
  induction ms with
  | nil => intro st; simp [elideMethods]
  | cons m rest ih =>
    intro st
    obtain ⟨n, sig⟩ := m
    simp only [elideMethods, elideSigStep_char]
    rw [ih]
    simp [List.any_cons, Bool.or_assoc]

/-- The file visitor, in closed form. -/
theorem elideItems_char (fnName : String) :
    ∀ (items : List Item) (st : Bool × Bool),
      elideItems fnName items st =
        (items.map (elideItemMap fnName),
         (st.1 || fileContribution fnName items, st.2)) := by
  intro items
  induction items with
  | nil => intro st; simp [elideItems, fileContribution]
  | cons it rest ih =>
    intro st
    cases it with
    | fn n sig =>
      simp only [elideItems, elideSigStep_char]
      rw [ih]
      simp [elideItemMap, fileContribution, itemContribution, List.any_cons,
        Bool.or_assoc]
    | implBlock ms =>
      simp only [elideItems, elideMethods_char]
      rw [ih]
      simp [elideItemMap, fileContribution, itemContribution, List.any_cons,
        Bool.or_assoc]
    | traitBlock ms =>
      simp only [elideItems, elideMethods_char]
      rw [ih]
      simp [elideItemMap, fileContribution, itemContribution, List.any_cons,
        Bool.or_assoc]
    | other =>
      simp only [elideItems]
      rw [ih]
      simp [elideItemMap, fileContribution, itemContribution, List.any_cons]

/-- The whole pass, in closed form. -/
theorem elide_lifetimes_annotations_char (file : List Item) (fnName : String) :
    elide_lifetimes_annotations file fnName =
      (file.map (elideItemMap fnName),
       { success := true,
         annotations_left := fileContribution fnName file,
         has_struct_lt := false }) := by
  simp only [elide_lifetimes_annotations, elideItems_char, Bool.false_or]

/-- One guarded method rewrite is idempotent and contribution-stable under
the side conditions. -/
theorem methodStep_idem (fnName : String) (n : String) (sig : Signature)
    (hok : (!(n == fnName) ||
      (distinctB (declaredLts sig) && sigNoArgLt sig)) = true) :
    (if n == fnName then elideSig (if n == fnName then elideSig sig else sig)
      else (if n == fnName then elideSig sig else sig)) =
      (if n == fnName then elideSig sig else sig) ∧
    ((n == fnName) && elideContribution
        (if n == fnName then elideSig sig else sig)) =
      ((n == fnName) && elideContribution sig) := by
  by_cases h : (n == fnName) = true
  · have hcond : distinctB (declaredLts sig) = true ∧ sigNoArgLt sig = true := by
      rw [h] at hok
      simpa using hok
    have hidem := elideSig_idem sig hcond.1 hcond.2
    simp [h, hidem.1, hidem.2]
  · have hf : (n == fnName) = false := by simpa using h
    simp [hf]

/-- One item rewrite is idempotent and contribution-stable under the side
conditions. -/
theorem elideItemMap_idem (fnName : String) (it : Item)
    (hok : itemElideOK fnName it = true) :
    elideItemMap fnName (elideItemMap fnName it) = elideItemMap fnName it ∧
      itemContribution fnName (elideItemMap fnName it) =
        itemContribution fnName it := by
  cases it with
  | other => exact ⟨rfl, rfl⟩
  | fn n sig =>
    have h1 := methodStep_idem fnName n sig hok
    constructor
    · show Item.fn n (if n == fnName then
        elideSig (if n == fnName then elideSig sig else sig) else
        (if n == fnName then elideSig sig else sig)) = _
      rw [h1.1]
      rfl
    · exact h1.2
  | implBlock ms =>
    have hokm : ∀ m ∈ ms, (!(m.1 == fnName) ||
        (distinctB (declaredLts m.2) && sigNoArgLt m.2)) = true :=
      List.all_eq_true.mp hok
    constructor
    · show Item.implBlock ((ms.map fun m => (m.1,
          if m.1 == fnName then elideSig m.2 else m.2)).map fun m => (m.1,
          if m.1 == fnName then elideSig m.2 else m.2)) = _
      rw [List.map_map]
      congr 1
      apply List.map_congr_left
      intro m hm
      obtain ⟨n, sig⟩ := m
      exact Prod.ext rfl (methodStep_idem fnName n sig (hokm (n, sig) hm)).1
    · show ((ms.map fun m => ((m : String × Signature).1,
          if m.1 == fnName then elideSig m.2 else m.2)).any fun m =>
            (m.1 == fnName) && elideContribution m.2) =
        (ms.any fun m => (m.1 == fnName) && elideContribution m.2)
      rw [List.any_map, Bool.eq_iff_iff, List.any_eq_true, List.any_eq_true]
      constructor
      · rintro ⟨m, hm, hpm⟩
        refine ⟨m, hm, ?_⟩
        obtain ⟨n, sig⟩ := m
        have h2 : ((n == fnName) && elideContribution
            (if n == fnName then elideSig sig else sig)) = true := hpm
        rw [(methodStep_idem fnName n sig (hokm (n, sig) hm)).2] at h2
        exact h2
      · rintro ⟨m, hm, hpm⟩
        refine ⟨m, hm, ?_⟩
        obtain ⟨n, sig⟩ := m
        show ((n == fnName) && elideContribution
          (if n == fnName then elideSig sig else sig)) = true
        rw [(methodStep_idem fnName n sig (hokm (n, sig) hm)).2]
        exact hpm
  | traitBlock ms =>
    have hokm : ∀ m ∈ ms, (!(m.1 == fnName) ||
        (distinctB (declaredLts m.2) && sigNoArgLt m.2)) = true :=
      List.all_eq_true.mp hok
    constructor
    · show Item.traitBlock ((ms.map fun m => (m.1,
          if m.1 == fnName then elideSig m.2 else m.2)).map fun m => (m.1,
          if m.1 == fnName then elideSig m.2 else m.2)) = _
      rw [List.map_map]
      congr 1
      apply List.map_congr_left
      intro m hm
      obtain ⟨n, sig⟩ := m
      exact Prod.ext rfl (methodStep_idem fnName n sig (hokm (n, sig) hm)).1
    · show ((ms.map fun m => ((m : String × Signature).1,
          if m.1 == fnName then elideSig m.2 else m.2)).any fun m =>
            (m.1 == fnName) && elideContribution m.2) =
        (ms.any fun m => (m.1 == fnName) && elideContribution m.2)
      rw [List.any_map, Bool.eq_iff_iff, List.any_eq_true, List.any_eq_true]
      constructor
      · rintro ⟨m, hm, hpm⟩
        refine ⟨m, hm, ?_⟩
        obtain ⟨n, sig⟩ := m
        have h2 : ((n == fnName) && elideContribution
            (if n == fnName then elideSig sig else sig)) = true := hpm
        rw [(methodStep_idem fnName n sig (hokm (n, sig) hm)).2] at h2
        exact h2
      · rintro ⟨m, hm, hpm⟩
        refine ⟨m, hm, ?_⟩
        obtain ⟨n, sig⟩ := m
        show ((n == fnName) && elideContribution
          (if n == fnName then elideSig sig else sig)) = true
        rw [(methodStep_idem fnName n sig (hokm (n, sig) hm)).2]
        exact hpm

/-- C9 (amended): running the Elision Engine twice on the same file and
function name yields the same rewritten file and the same returned flags as
running it once, provided every signature the pass touches (items and methods
whose name equals the target) has pairwise-distinct declared lifetime
parameters and no lifetime in generic-argument position; without those side
conditions a second pass can differ (see the counterexample). -/
theorem C9_elision_idempotent_under_conditions (file : List Item)
    (fnName : String) (hok : file.all (itemElideOK fnName) = true) :
    elide_lifetimes_annotations
        (elide_lifetimes_annotations file fnName).1 fnName =
      elide_lifetimes_annotations file fnName := by
  have hokm := List.all_eq_true.mp hok
  have hmap : (file.map (elideItemMap fnName)).map (elideItemMap fnName) =
      file.map (elideItemMap fnName) := by
    rw [List.map_map]
    apply List.map_congr_left
    intro it hit
    exact (elideItemMap_idem fnName it (hokm it hit)).1
  have hfc : fileContribution fnName (file.map (elideItemMap fnName)) =
      fileContribution fnName file := by
    unfold fileContribution
    rw [List.any_map, Bool.eq_iff_iff, List.any_eq_true, List.any_eq_true]
    constructor
    · rintro ⟨it, hit, hp⟩
      refine ⟨it, hit, ?_⟩
      have h2 : itemContribution fnName (elideItemMap fnName it) = true := hp
      rw [(elideItemMap_idem fnName it (hokm it hit)).2] at h2
      exact h2
    · rintro ⟨it, hit, hp⟩
      refine ⟨it, hit, ?_⟩
      show itemContribution fnName (elideItemMap fnName it) = true
      rw [(elideItemMap_idem fnName it (hokm it hit)).2]
      exact hp
  rw [elide_lifetimes_annotations_char file fnName]
  show elide_lifetimes_annotations (file.map (elideItemMap fnName)) fnName = _
  rw [elide_lifetimes_annotations_char, hmap, hfc]

/-- Witness: a concrete file satisfying the side conditions on which the
second pass is checked to change nothing. -/
theorem C9_elision_idempotent_under_conditions_witness :
    ([Item.fn "f" ⟨⟨[.lifetimeParam "a"], none⟩,
        [.typed (.ref (some "a") .unit)],
        some (.ref (some "a") .unit)⟩].all (itemElideOK "f")) = true ∧
    elide_lifetimes_annotations
        (elide_lifetimes_annotations
          [Item.fn "f" ⟨⟨[.lifetimeParam "a"], none⟩,
            [.typed (.ref (some "a") .unit)],
            some (.ref (some "a") .unit)⟩] "f").1 "f" =
      elide_lifetimes_annotations
        [Item.fn "f" ⟨⟨[.lifetimeParam "a"], none⟩,
          [.typed (.ref (some "a") .unit)],
          some (.ref (some "a") .unit)⟩] "f" :=
  ⟨by decide, C9_elision_idempotent_under_conditions _ "f" (by decide)⟩

end Rem
